import Mathlib

/-!
Shallow embedding of `src/wordle.py` (a Wordle solver) together with proofs
about its constraint tracking, feedback computation, entropy ranking and
self-play loop.

Python values and effects are modelled as follows:
* strings are `List Char`; `ord` is `Char.toNat`, `chr` is `Char.ofNat`;
* list indexing follows Python semantics: negative indices count from the
  end, and an out-of-range index raises, modelled by the `PyErr.index`
  error of the `PyM` monad; an ordered comparison on a non-numeric value
  raises `PyErr.type`;
* the 26 x 7 information array is a `List (List Cell)` where a `Cell` is
  the Python value stored there: the initial integer `0`, a colour
  character written by `generate_array`, or a boolean written into the
  last column; Python booleans are numeric (`True == 1`), which
  `cellInt` reflects;
* `for` loops are modelled by structural recursion over the list of loop
  indices (`List.range`), threading the mutated state.
-/

inductive PyErr where
  | index
  | type
deriving DecidableEq, Repr

abbrev PyM (α : Type) : Type := Except PyErr α

instance {ε α : Type} [DecidableEq ε] [DecidableEq α] :
    DecidableEq (Except ε α) := fun a b =>
  match a, b with
  | .ok x, .ok y =>
    if h : x = y then isTrue (by rw [h]) else isFalse (by simp [h])
  | .error x, .error y =>
    if h : x = y then isTrue (by rw [h]) else isFalse (by simp [h])
  | .ok _, .error _ => isFalse (by simp)
  | .error _, .ok _ => isFalse (by simp)

inductive Cell where
  | cNum (n : Int)
  | cChar (c : Char)
  | cBool (b : Bool)
deriving DecidableEq, Repr

/-- Python list read `l[i]` with negative-index wraparound. -/
def pyGet {α : Type} (l : List α) (i : Int) : PyM α :=
  let j : Int := if i < 0 then (l.length : Int) + i else i
  if 0 ≤ j then
    match l.get? j.toNat with
    | some v => .ok v
    | none => .error .index
  else .error .index

/-- Python list write `l[i] = v` with negative-index wraparound. -/
def pySet {α : Type} (l : List α) (i : Int) (v : α) : PyM (List α) :=
  let j : Int := if i < 0 then (l.length : Int) + i else i
  if 0 ≤ j ∧ j.toNat < l.length then .ok (l.set j.toNat v) else .error .index

/-- Python nested write `arr[i][j] = v` on a list of lists. -/
def pySet2 (arr : List (List Cell)) (i j : Int) (v : Cell) :
    PyM (List (List Cell)) := do
  let row ← pyGet arr i
  let row' ← pySet row j v
  pySet arr i row'

/-- Python truthiness of a cell value (`0` and `False` are falsy). -/
def cellTruthy : Cell → Bool
  | .cNum n => n ≠ 0
  | .cChar _ => true
  | .cBool b => b

/-- Python `==` between a cell value and a one-character string.  A number
or boolean never equals a string in Python. -/
def cellEqChar : Cell → Char → Bool
  | .cNum _, _ => false
  | .cChar c, d => c = d
  | .cBool _, _ => false

/-- Numeric view of a cell for Python ordered comparisons; comparing a
string with an int raises `TypeError`, and `True`/`False` compare as
`1`/`0`. -/
def cellInt : Cell → PyM Int
  | .cNum n => .ok n
  | .cChar _ => .error .type
  | .cBool b => .ok (if b then 1 else 0)

/-- Python `!=` between a cell value and an int: unlike ordered
comparisons it never raises, and values of different types are unequal. -/
def cellNeInt : Cell → Int → Bool
  | .cNum n, m => n ≠ m
  | .cChar _, _ => true
  | .cBool b, m => (if b then (1 : Int) else 0) ≠ m

/-- Source: `index_of_letter` (wordle.py lines 9-13), `ord(letter) - ord('a')`. -/
def index_of_letter (letter : Char) : Int :=
  (letter.toNat : Int) - ('a'.toNat : Int)

/-- Loop of `is_incorrect_position` over the word positions. -/
def iip_loop (word : List Char) (array : List (List Cell)) :
    List Nat → PyM Bool
  | [] => .ok true
  | j :: js => do
    let wj ← pyGet word (j : Int)
    let i := index_of_letter wj
    let row ← pyGet array i
    let cell ← pyGet row (j : Int)
    if cellEqChar cell 'b' || cellEqChar cell 'y' then
      .ok false
    else
      iip_loop word array js

/-- Source: `is_incorrect_position` (wordle.py lines 15-24). -/
def is_incorrect_position (word : List Char) (array : List (List Cell)) :
    PyM Bool :=
  iip_loop word array (List.range word.length)

/-- Inner loop of `is_correct_position` over the 26 array rows. -/
def icp_inner (array : List (List Cell)) (i : Int) (j : Nat) :
    List Nat → PyM Bool
  | [] => .ok true
  | k :: ks => do
    let row ← pyGet array (k : Int)
    let cell ← pyGet row (j : Int)
    if cellEqChar cell 'g' && !(i = (k : Int) : Bool) then
      .ok false
    else
      icp_inner array i j ks

/-- Outer loop of `is_correct_position` over the word positions. -/
def icp_loop (word : List Char) (array : List (List Cell)) :
    List Nat → PyM Bool
  | [] => .ok true
  | j :: js => do
    let wj ← pyGet word (j : Int)
    let i := index_of_letter wj
    let b ← icp_inner array i j (List.range array.length)
    if b then icp_loop word array js else .ok false

/-- Source: `is_correct_position` (wordle.py lines 26-36). -/
def is_correct_position (word : List Char) (array : List (List Cell)) :
    PyM Bool :=
  icp_loop word array (List.range word.length)

/-- First loop of `is_correct_letter_frequencies`: per-letter count check. -/
def iclf_loop1 (word : List Char) (array : List (List Cell)) :
    List Nat → PyM Bool
  | [] => .ok true
  | j :: js => do
    let wj ← pyGet word (j : Int)
    let count : Int := (word.count wj : Int)
    let i := index_of_letter wj
    let row ← pyGet array i
    let lfCell ← pyGet row (-2)
    let exCell ← pyGet row (-1)
    if cellTruthy exCell then
      if cellNeInt lfCell count then .ok false else iclf_loop1 word array js
    else do
      let lf ← cellInt lfCell
      if lf > count then .ok false else iclf_loop1 word array js

/-- Second loop of `is_correct_letter_frequencies`: letters with a positive
minimum count must occur in the word. -/
def iclf_loop2 (word : List Char) (array : List (List Cell)) :
    List Nat → PyM Bool
  | [] => .ok true
  | j :: js => do
    let letter_to_check := Char.ofNat (j + 'a'.toNat)
    let row ← pyGet array (j : Int)
    let lfCell ← pyGet row (-2)
    let lf ← cellInt lfCell
    if lf ≥ 1 then
      if letter_to_check ∉ word then .ok false
      else iclf_loop2 word array js
    else iclf_loop2 word array js

/-- Source: `is_correct_letter_frequencies` (wordle.py lines 38-59). -/
def is_correct_letter_frequencies (word : List Char)
    (array : List (List Cell)) : PyM Bool := do
  let b ← iclf_loop1 word array (List.range word.length)
  if b then iclf_loop2 word array (List.range array.length) else .ok false

/-- Source: `valid_guess` (wordle.py lines 3-7): the conjunction of the
three checks, with Python short-circuit evaluation of `and`. -/
def valid_guess (word : List Char) (array : List (List Cell)) : PyM Bool := do
  let b1 ← is_incorrect_position word array
  if b1 then do
    let b2 ← is_correct_position word array
    if b2 then is_correct_letter_frequencies word array else .ok false
  else .ok false

/-- Loop of `compute_letter_freq` over the guess positions, threading the
running count and the exactness flag. -/
def clf_loop (letter : Char) (guess check : List Char) :
    List Nat → Int → Bool → PyM (Int × Bool)
  | [], count, is_exact => .ok (count, is_exact)
  | i :: is', count, is_exact => do
    let ci ← pyGet check (i : Int)
    let gi ← pyGet guess (i : Int)
    let count' := if (ci = 'g' ∨ ci = 'y') ∧ gi = letter then count + 1 else count
    let is_exact' := if ci = 'b' ∧ gi = letter then true else is_exact
    clf_loop letter guess check is' count' is_exact'

/-- Source: `compute_letter_freq` (wordle.py lines 83-101). -/
def compute_letter_freq (letter : Char) (guess check : List Char) :
    PyM (Int × Bool) :=
  clf_loop letter guess check (List.range guess.length) 0 false

/-- Loop of `generate_array` over the guess positions, updating the row of
each guessed letter. -/
def ga_loop (guess check : List Char) :
    List Nat → List (List Cell) → PyM (List (List Cell))
  | [], array => .ok array
  | j :: js, array => do
    let gj ← pyGet guess (j : Int)
    let i := index_of_letter gj
    let letter_count ← compute_letter_freq gj guess check
    let cj ← pyGet check (j : Int)
    let array ← pySet2 array i (j : Int) (.cChar cj)
    let array ← pySet2 array i (-2) (.cNum letter_count.1)
    let array ← pySet2 array i (-1) (.cBool letter_count.2)
    ga_loop guess check js array

/-- Source: `generate_array` (wordle.py lines 62-81). -/
def generate_array (guess check : List Char) (array : List (List Cell)) :
    PyM (List (List Cell)) :=
  ga_loop guess check (List.range guess.length) array

/-- The fresh all-zero 26 x 7 information array built at the start of a
game (wordle.py lines 200 and 241). -/
def init_array : List (List Cell) :=
  List.replicate 26 (List.replicate 7 (Cell.cNum 0))

/-- First loop of `compute_wordle_information`: letter totals of the answer
and per-letter green counts. -/
def cwi_loop1 (guess answer : List Char) :
    List Nat → List Int → List Int → PyM (List Int × List Int)
  | [], freq, green => .ok (freq, green)
  | j :: js, freq, green => do
    let aj ← pyGet answer (j : Int)
    let i := index_of_letter aj
    let fi ← pyGet freq i
    let freq' ← pySet freq i (fi + 1)
    let gj ← pyGet guess (j : Int)
    if gj = aj then do
      let gi ← pyGet green i
      let green' ← pySet green i (gi + 1)
      cwi_loop1 guess answer js freq' green'
    else
      cwi_loop1 guess answer js freq' green

/-- Second loop of `compute_wordle_information`: emit one colour per guess
position, consuming the green budget. -/
def cwi_loop2 (guess answer : List Char) (freq : List Int) :
    List Nat → List Char → List Int → PyM (List Char × List Int)
  | [], seq, green => .ok (seq, green)
  | j :: js, seq, green => do
    let gj ← pyGet guess (j : Int)
    let count : Int := ((guess.take (j + 1)).count gj : Int)
    let i := index_of_letter gj
    let aj ← pyGet answer (j : Int)
    if gj = aj then do
      let gi ← pyGet green i
      let green' ← pySet green i (gi - 1)
      cwi_loop2 guess answer freq js (seq ++ ['g']) green'
    else do
      let c ←
        if gj ∈ answer then do
          let fi ← pyGet freq i
          if count ≤ fi then do
            let gi ← pyGet green i
            pure (if fi - count ≥ gi then 'y' else 'b')
          else pure 'b'
        else pure 'b'
      cwi_loop2 guess answer freq js (seq ++ [c]) green

/-- Source: `compute_wordle_information` (wordle.py lines 103-130). -/
def compute_wordle_information (guess answer : List Char) :
    PyM (List Char) := do
  let freq0 : List Int := List.replicate 26 0
  let green0 : List Int := List.replicate 26 0
  let fg ← cwi_loop1 guess answer (List.range answer.length) freq0 green0
  let sg ← cwi_loop2 guess answer fg.1 (List.range guess.length) [] fg.2
  .ok sg.1

/-- Update of the Python dictionary of colour-sequence counts: increment
the count of the key if it is present, otherwise append it (Python
dictionaries preserve insertion order). -/
def dict_bump : List (List Char × Nat) → List Char → List (List Char × Nat)
  | [], k => [(k, 1)]
  | (k', c) :: rest, k =>
    if k' = k then (k', c + 1) :: rest else (k', c) :: dict_bump rest k

/-- Counting loop of `compute_probability_distribution` over the word list. -/
def cpd_loop (guess : List Char) :
    List (List Char) → List (List Char × Nat) → PyM (List (List Char × Nat))
  | [], d => .ok d
  | w :: ws, d => do
    let s ← compute_wordle_information guess w
    cpd_loop guess ws (dict_bump d s)

/-- Source: `compute_probability_distribution` (wordle.py lines 132-153).
The second Python loop divides every stored count by the word-list
length; exact rational division models the Python float division. -/
def compute_probability_distribution (guess : List Char)
    (word_list : List (List Char)) : PyM (List (List Char × ℚ)) := do
  let d ← cpd_loop guess word_list []
  .ok (d.map (fun p => (p.1, (p.2 : ℚ) / (word_list.length : ℚ))))

/-- Source: `compute_entropy` (wordle.py lines 155-171).  The Python
accumulation `entropy += val * math.log(1 / val, 2)` is a left fold, with
`math.log(x, 2)` modelled by the real base-2 logarithm. -/
noncomputable def compute_entropy (guess : List Char)
    (word_list : List (List Char)) : PyM ℝ := do
  let d ← compute_probability_distribution guess word_list
  .ok (d.foldl (fun acc p => acc + (p.2 : ℝ) * Real.logb 2 (1 / (p.2 : ℝ))) 0)

/-- Accumulating loop of `generate_entropy_list` over the word list. -/
noncomputable def gel_loop (possible_guesses : List (List Char)) :
    List (List Char) → List (List Char × ℝ) → PyM (List (List Char × ℝ))
  | [], el => .ok el
  | w :: ws, el => do
    let e ← compute_entropy w possible_guesses
    gel_loop possible_guesses ws (el ++ [(w, e)])

/-- The relation by which `sorted(entropy_list, key=lambda x: x[1],
reverse=True)` orders its output: descending second components. -/
def entropy_ge (p q : List Char × ℝ) : Prop := q.2 ≤ p.2

noncomputable instance : DecidableRel entropy_ge := fun p q =>
  inferInstanceAs (Decidable (q.2 ≤ p.2))

/-- Source: `generate_entropy_list` (wordle.py lines 173-190).  The Python
built-in `sorted` is a stable sort; with `reverse=True` it keeps elements
with equal keys in input order while sorting keys descending, which is
exactly insertion sort by the non-strict relation `entropy_ge`. -/
noncomputable def generate_entropy_list
    (word_list possible_guesses : List (List Char)) :
    PyM (List (List Char × ℝ)) := do
  let el ← gel_loop possible_guesses word_list []
  .ok (el.insertionSort entropy_ge)

/-- Candidate-selection loop of the solver (wordle.py lines 215-217 and
252-254): words of the dictionary passing `valid_guess`, in order. -/
def filter_valid (lines : List (List Char)) (array : List (List Cell)) :
    List Nat → List (List Char) → PyM (List (List Char))
  | [], acc => .ok acc
  | j :: js, acc => do
    let w ← pyGet lines (j : Int)
    let b ← valid_guess w array
    if b then filter_valid lines array js (acc ++ [w])
    else filter_valid lines array js acc

/-- Inner suggestion-selection loop (wordle.py lines 258-261): scan the
entropy list for entries matching one possible answer and adopt it when
it ties the maximal entropy. -/
noncomputable def pick_inner (entropy_list : List (List Char × ℝ))
    (g : List Char) : List Nat → List Char → PyM (List Char)
  | [], sugg => .ok sugg
  | i :: is', sugg => do
    let ei ← pyGet entropy_list (i : Int)
    if ei.1 = g then do
      let e0 ← pyGet entropy_list 0
      if e0.2 = ei.2 then pick_inner entropy_list g is' g
      else pick_inner entropy_list g is' sugg
    else pick_inner entropy_list g is' sugg

/-- Outer suggestion-selection loop (wordle.py lines 257-261) over the
possible answers. -/
noncomputable def pick_outer (entropy_list : List (List Char × ℝ)) :
    List (List Char) → List Char → PyM (List Char)
  | [], sugg => .ok sugg
  | g :: gs, sugg => do
    let sugg' ← pick_inner entropy_list g (List.range entropy_list.length) sugg
    pick_outer entropy_list gs sugg'

/-- One post-feedback update of the self-play loop (wordle.py lines
251-261): incorporate the feedback, filter the dictionary, rank by
entropy and choose the next suggestion. -/
noncomputable def cpw_update (lines : List (List Char))
    (guess check : List Char) (guess_array : List (List Cell)) :
    PyM (List Char × List (List Cell)) := do
  let guess_array ← generate_array guess check guess_array
  let possible_guesses ← filter_valid lines guess_array
    (List.range lines.length) []
  let entropy_list ← generate_entropy_list lines possible_guesses
  let e0 ← pyGet entropy_list 0
  let sugg ← pick_outer entropy_list possible_guesses e0.1
  .ok (sugg, guess_array)

/-- The `while True` loop of `computer_play_wordle` (wordle.py lines
244-263).  The loop body runs at most six times, since it returns as soon
as `loop_count` reaches 6; the fuel argument makes the recursion
structural, and the fuel-exhausted branch is unreachable whenever the
fuel is at least `6 - loop_count`. -/
noncomputable def cpw_loop (lines : List (List Char)) (answer : List Char) :
    Nat → List Char → Nat → List (List Cell) → PyM Nat
  | 0, _, _, _ => .ok 0
  | fuel + 1, guess_suggestion, loop_count, guess_array => do
    let loop_count := loop_count + 1
    let guess := guess_suggestion
    let check ← compute_wordle_information guess answer
    if check = "ggggg".toList then .ok loop_count
    else do
      let sa ← cpw_update lines guess check guess_array
      if loop_count ≥ 6 then .ok (loop_count + 1)
      else cpw_loop lines answer fuel sa.1 loop_count sa.2

/-- Source: `computer_play_wordle` (wordle.py lines 231-263).  The word
list that the Python function reads from the file `sgb-words.txt` (data
external to the source) is supplied as the explicit parameter `lines`,
as directed by the dependency-injection reading of the specification;
the hard-coded starting suggestion is `tares`. -/
noncomputable def computer_play_wordle (lines : List (List Char))
    (answer : List Char) : PyM Nat :=
  cpw_loop lines answer 6 "tares".toList 0 init_array

/-- Replay of the self-play solver state: the pair of the pending
suggestion and the information array at the start of turn `t + 1`,
obtained by applying `cpw_update` to the feedback of each earlier turn. -/
noncomputable def cpw_state (lines : List (List Char)) (answer : List Char) :
    Nat → PyM (List Char × List (List Cell))
  | 0 => .ok ("tares".toList, init_array)
  | t + 1 => do
    let s ← cpw_state lines answer t
    let check ← compute_wordle_information s.1 answer
    cpw_update lines s.1 check s.2

/-- The feedback the self-play solver receives on turn `t` (turns are
numbered from 1). -/
noncomputable def cpw_feedback (lines : List (List Char))
    (answer : List Char) (t : Nat) : PyM (List Char) := do
  let s ← cpw_state lines answer (t - 1)
  compute_wordle_information s.1 answer

/-- The subset of a dictionary accepted by `valid_guess` against an
information array: the candidate set of the specification. -/
def candidates (dictionary : List (List Char))
    (array : List (List Cell)) : List (List Char) :=
  dictionary.filter (fun w =>
    match valid_guess w array with
    | .ok true => true
    | _ => false)

/-- Extract the value of a successful computation, with a default for the
error case; used to name concrete results in witness statements. -/
def pyForce {α : Type} (d : α) : PyM α → α
  | .ok a => a
  | .error _ => d

/-- The entropy value the program associates to a guess against a pool of
possible answers; equals the payload of `compute_entropy` whenever that
computation succeeds. -/
noncomputable def entVal (pg : List (List Char)) (w : List Char) : ℝ :=
  pyForce 0 (compute_entropy w pg)

instance : IsTotal (List Char × ℝ) entropy_ge :=
  ⟨fun a b => le_total b.2 a.2⟩

instance : IsTrans (List Char × ℝ) entropy_ge :=
  ⟨fun _ _ _ hab hbc => le_trans hbc hab⟩

/-- Letter index as a natural number; agrees with `index_of_letter` on
lowercase letters. -/
def letterIdx (c : Char) : Nat := c.toNat - 'a'.toNat

/-- Lowercase letter, between `a` (code 97) and `z` (code 122). -/
def lcChar (c : Char) : Prop := 97 ≤ c.toNat ∧ c.toNat ≤ 122

instance (c : Char) : Decidable (lcChar c) := by
  unfold lcChar; infer_instance

/-- All characters of the word are lowercase letters. -/
def lcWord (w : List Char) : Prop := ∀ c ∈ w, lcChar c

instance (w : List Char) : Decidable (lcWord w) :=
  List.decidableBAll _ w

/-- Shape of the information array: 26 rows of 7 cells each. -/
def wf_array (arr : List (List Cell)) : Prop :=
  arr.length = 26 ∧ ∀ row ∈ arr, row.length = 7

instance (arr : List (List Cell)) : Decidable (wf_array arr) := by
  unfold wf_array; infer_instance

/-- Cell at row `i`, column `j` of the array (total accessor). -/
def cellB (arr : List (List Cell)) (i j : Nat) : Cell :=
  (arr.getD i []).getD j (.cNum 0)

/-- Character of the word at position `j` (total accessor). -/
def wAt (w : List Char) (j : Nat) : Char := w.getD j ' '

/-- Whether a cell holds a numeric (int or bool) Python value. -/
def Cell.isNum : Cell → Bool
  | .cChar _ => false
  | _ => true

/-- The sixth column of every row (the stored minimum letter count) holds
a numeric value, as it does in every array the program builds. -/
def num5 (arr : List (List Cell)) : Prop :=
  ∀ row ∈ arr, ((row.getD 5 (.cNum 0)).isNum : Prop)

instance (arr : List (List Cell)) : Decidable (num5 arr) :=
  List.decidableBAll _ arr

/-- The stored minimum count of letter `i` (total accessor; rows built by
the program always store a number here). -/
def rowMin (arr : List (List Cell)) (i : Nat) : Int :=
  match cellInt (cellB arr i 5) with
  | .ok n => n
  | .error _ => 0

/-- The stored exact-count flag of letter `i`. -/
def rowExact (arr : List (List Cell)) (i : Nat) : Bool :=
  cellTruthy (cellB arr i 6)

/-- Position `j` of the word hits a black or yellow cell of its letter. -/
def byAt (w : List Char) (arr : List (List Cell)) (j : Nat) : Bool :=
  cellEqChar (cellB arr (letterIdx (wAt w j)) j) 'b' ||
    cellEqChar (cellB arr (letterIdx (wAt w j)) j) 'y'

/-- Specification of `is_incorrect_position`: no letter of the word sits
on a position where it was marked black or yellow. -/
def posOK1 (w : List Char) (arr : List (List Cell)) : Bool :=
  (List.range w.length).all fun j => !byAt w arr j

/-- Specification of `is_correct_position`: every green cell is matched
by the word. -/
def posOK2 (w : List Char) (arr : List (List Cell)) : Bool :=
  (List.range w.length).all fun j =>
    (List.range 26).all fun k =>
      !(cellEqChar (cellB arr k j) 'g' && !(letterIdx (wAt w j) == k))

/-- Specification of the first loop of `is_correct_letter_frequencies`:
the count of each letter of the word meets the stored bound. -/
def freqOK1 (w : List Char) (arr : List (List Cell)) : Bool :=
  (List.range w.length).all fun j =>
    if rowExact arr (letterIdx (wAt w j)) then
      rowMin arr (letterIdx (wAt w j)) == (w.count (wAt w j) : Int)
    else
      rowMin arr (letterIdx (wAt w j)) ≤ (w.count (wAt w j) : Int)

/-- Specification of the second loop of `is_correct_letter_frequencies`:
every letter with positive stored minimum count occurs in the word. -/
def freqOK2 (w : List Char) (arr : List (List Cell)) : Bool :=
  (List.range 26).all fun k =>
    !((1 : Int) ≤ rowMin arr k : Bool) || (Char.ofNat (k + 'a'.toNat) ∈ w : Bool)

/-- Specification of `valid_guess`: conjunction of the four loop
specifications. -/
def validB (w : List Char) (arr : List (List Cell)) : Bool :=
  posOK1 w arr && posOK2 w arr && freqOK1 w arr && freqOK2 w arr

/-- The lowercase letter with index `i`. -/
def letterChar (i : Nat) : Char := Char.ofNat (i + 'a'.toNat)

/-- Specification of the count computed by `compute_letter_freq`: the
number of positions of `guess` holding `letter` whose check colour is
green or yellow. -/
def clfCount (letter : Char) (guess check : List Char) : Nat :=
  (List.range guess.length).countP fun i =>
    decide ((wAt check i = 'g' ∨ wAt check i = 'y') ∧ wAt guess i = letter)

/-- Specification of the exactness flag computed by
`compute_letter_freq`: some position of `guess` holding `letter` has a
black check colour. -/
def clfExact (letter : Char) (guess check : List Char) : Bool :=
  (List.range guess.length).any fun i =>
    decide (wAt check i = 'b' ∧ wAt guess i = letter)

/-- Number of occurrences of letter `L` among the first `p` positions of
the word. -/
def occUpto (w : List Char) (p : Nat) (L : Char) : Nat :=
  (List.range p).countP fun k => decide (wAt w k = L)

/-- Number of green positions (guess letter matching the answer) holding
letter `L` among the first `p` guess positions. -/
def greensUpto (guess answer : List Char) (p : Nat) (L : Char) : Nat :=
  (List.range p).countP fun k =>
    decide (wAt guess k = wAt answer k ∧ wAt guess k = L)

/-- Number of non-green positions holding letter `L` among the first `p`
guess positions. -/
def nongreenUpto (guess answer : List Char) (p : Nat) (L : Char) : Nat :=
  (List.range p).countP fun k =>
    decide (wAt guess k = L ∧ wAt guess k ≠ wAt answer k)

/-- The colour of position `j` as the specification states it: green when
the guess matches the answer there, otherwise yellow exactly when the
number of non-green occurrences of the letter up to and including `j`
does not exceed the total count of the letter in the answer minus the
total number of green positions of that letter, and black otherwise. -/
def tile (guess answer : List Char) (j : Nat) : Char :=
  if wAt guess j = wAt answer j then 'g'
  else if nongreenUpto guess answer (j + 1) (wAt guess j) ≤
      answer.count (wAt guess j) -
        greensUpto guess answer guess.length (wAt guess j)
  then 'y' else 'b'

/-- The full feedback sequence described by the specification. -/
def tileMap (guess answer : List Char) : List Char :=
  (List.range guess.length).map (tile guess answer)

/-- Soundness of an information array with respect to a fixed true
answer: every colour mark is consistent with the answer and every stored
count cell holds a number that bounds (or, when the flag is set, equals)
the count of that letter in the answer. -/
def SoundArr (answer : List Char) (arr : List (List Cell)) : Prop :=
  (∀ i < 26, ∀ j < 5,
    (cellB arr i j = Cell.cChar 'g' → wAt answer j = letterChar i) ∧
    ((cellB arr i j = Cell.cChar 'y' ∨ cellB arr i j = Cell.cChar 'b') →
      wAt answer j ≠ letterChar i)) ∧
  (∀ i < 26, ∃ m : Nat, cellB arr i 5 = Cell.cNum (m : Int) ∧
    m ≤ answer.count (letterChar i) ∧
    (cellTruthy (cellB arr i 6) = true → m = answer.count (letterChar i)))

/-- One turn of constraint accumulation against a known answer: compute
the feedback for the guess and incorporate it into the array (wordle.py
lines 248 and 251). -/
def apply_guess (answer : List Char) (arr : List (List Cell))
    (guess : List Char) : PyM (List (List Cell)) := do
  let check ← compute_wordle_information guess answer
  generate_array guess check arr

/-- Accumulation of a whole sequence of guesses against a known answer,
starting from a given array. -/
def run_guesses (answer : List Char) :
    List (List Char) → List (List Cell) → PyM (List (List Cell))
  | [], arr => .ok arr
  | g :: gs, arr => do
    let arr' ← apply_guess answer arr g
    run_guesses answer gs arr'

/-- Whether some position of `ts` holds a guess letter with index `i`. -/
def rowHit (guess : List Char) (ts : List Nat) (i : Nat) : Bool :=
  ts.any fun t => letterIdx (wAt guess t) == i

theorem pym_bind_ok {α β : Type} (a : α) (f : α → PyM β) :
    (Except.ok a : PyM α) >>= f = f a := rfl

theorem pym_bind_err {α β : Type} (e : PyErr) (f : α → PyM β) :
    (Except.error e : PyM α) >>= f = .error e := rfl

theorem lcChar_index {c : Char} (h : lcChar c) :
    index_of_letter c = ((letterIdx c : Nat) : Int) := by
  obtain ⟨h1, _⟩ := h
  have ha : 'a'.toNat = 97 := rfl
  simp only [index_of_letter, letterIdx, ha]
  omega

theorem lcChar_letterIdx_lt {c : Char} (h : lcChar c) : letterIdx c < 26 := by
  obtain ⟨h1, h2⟩ := h
  have ha : 'a'.toNat = 97 := rfl
  simp only [letterIdx, ha]
  omega

theorem pyGet_ofNat_ok {α : Type} {l : List α} {j : Nat} (h : j < l.length)
    (d : α) : pyGet l (j : Int) = .ok (l.getD j d) := by
  have h1 : ¬ ((j : Int) < 0) := by omega
  simp [pyGet, h1, List.get?_eq_getElem?, List.getElem?_eq_getElem h]

theorem pyGet_ofNat_err {α : Type} {l : List α} {j : Nat}
    (h : l.length ≤ j) : pyGet l (j : Int) = .error .index := by
  have h1 : ¬ ((j : Int) < 0) := by omega
  simp [pyGet, h1, List.get?_eq_getElem?, List.getElem?_eq_none h]

theorem pyGet_neg2 {α : Type} {l : List α} (h : l.length = 7) (d : α) :
    pyGet l (-2) = .ok (l.getD 5 d) := by
  have h5 : (5 : Nat) < l.length := by omega
  have e1 : ((l.length : Int) + (-2)) = ((5 : Nat) : Int) := by omega
  simp [pyGet, h, List.get?_eq_getElem?, List.getElem?_eq_getElem h5]

theorem pyGet_neg1 {α : Type} {l : List α} (h : l.length = 7) (d : α) :
    pyGet l (-1) = .ok (l.getD 6 d) := by
  have h6 : (6 : Nat) < l.length := by omega
  simp [pyGet, h, List.get?_eq_getElem?, List.getElem?_eq_getElem h6]

theorem pySet_ofNat_ok {α : Type} {l : List α} {j : Nat} (h : j < l.length)
    (v : α) : pySet l (j : Int) v = .ok (l.set j v) := by
  have h1 : ¬ ((j : Int) < 0) := by omega
  simp [pySet, h1, h]

theorem pySet_neg2 {α : Type} {l : List α} (h : l.length = 7) (v : α) :
    pySet l (-2) v = .ok (l.set 5 v) := by
  simp [pySet, h]

theorem pySet_neg1 {α : Type} {l : List α} (h : l.length = 7) (v : α) :
    pySet l (-1) v = .ok (l.set 6 v) := by
  simp [pySet, h]

theorem pySet2_nat {arr : List (List Cell)} {i j : Nat} (hi : i < arr.length)
    (hj : j < (arr.getD i []).length) (v : Cell) :
    pySet2 arr (i : Int) (j : Int) v =
      .ok (arr.set i ((arr.getD i []).set j v)) := by
  rw [pySet2, pyGet_ofNat_ok hi [], pym_bind_ok, pySet_ofNat_ok hj,
    pym_bind_ok, pySet_ofNat_ok hi]

theorem pySet2_neg2 {arr : List (List Cell)} {i : Nat} (hi : i < arr.length)
    (h7 : (arr.getD i []).length = 7) (v : Cell) :
    pySet2 arr (i : Int) (-2) v =
      .ok (arr.set i ((arr.getD i []).set 5 v)) := by
  rw [pySet2, pyGet_ofNat_ok hi [], pym_bind_ok, pySet_neg2 h7,
    pym_bind_ok, pySet_ofNat_ok hi]

theorem pySet2_neg1 {arr : List (List Cell)} {i : Nat} (hi : i < arr.length)
    (h7 : (arr.getD i []).length = 7) (v : Cell) :
    pySet2 arr (i : Int) (-1) v =
      .ok (arr.set i ((arr.getD i []).set 6 v)) := by
  rw [pySet2, pyGet_ofNat_ok hi [], pym_bind_ok, pySet_neg1 h7,
    pym_bind_ok, pySet_ofNat_ok hi]

theorem getD_mem_of_lt {α : Type} {l : List α} {j : Nat} (h : j < l.length)
    (d : α) : l.getD j d ∈ l := by
  simp only [List.getD_eq_getElem?_getD, List.getElem?_eq_getElem h,
    Option.getD_some]
  exact List.getElem_mem h

theorem wAt_mem {w : List Char} {j : Nat} (h : j < w.length) : wAt w j ∈ w :=
  getD_mem_of_lt h ' '

theorem wf_row_len {arr : List (List Cell)} (ha : wf_array arr) {i : Nat}
    (hi : i < 26) : (arr.getD i []).length = 7 := by
  have h26 : arr.length = 26 := ha.1
  have h : i < arr.length := by omega
  exact ha.2 _ (getD_mem_of_lt h [])

theorem iip_loop_eq {w : List Char} {arr : List (List Cell)} (hw : lcWord w)
    (h7 : w.length ≤ 7) (ha : wf_array arr) :
    ∀ n s, s + n = w.length →
      iip_loop w arr (List.range' s n) =
        .ok ((List.range' s n).all fun j => !byAt w arr j) := by
  intro n
  induction n with
  | zero => intro s _; rfl
  | succ m ih =>
    intro s hs
    have hsw : s < w.length := by omega
    have hc : lcChar (wAt w s) := hw _ (wAt_mem hsw)
    have hidx : letterIdx (wAt w s) < 26 := lcChar_letterIdx_lt hc
    have hidxa : letterIdx (wAt w s) < arr.length := by
      have := ha.1; omega
    have hrow : (arr.getD (letterIdx (wAt w s)) []).length = 7 :=
      wf_row_len ha hidx
    have hsrow : s < (arr.getD (letterIdx (wAt w s)) []).length := by omega
    rw [List.range'_succ]
    have hwAt : w.getD s ' ' = wAt w s := rfl
    have hcell : (arr.getD (letterIdx (wAt w s)) []).getD s (Cell.cNum 0) =
        cellB arr (letterIdx (wAt w s)) s := rfl
    simp only [iip_loop, pyGet_ofNat_ok hsw ' ', pym_bind_ok, hwAt,
      lcChar_index hc, pyGet_ofNat_ok hidxa [], pym_bind_ok,
      pyGet_ofNat_ok hsrow (Cell.cNum 0), hcell]
    by_cases hb : byAt w arr s
    · rw [if_pos]
      · simp [hb]
      · simpa [byAt] using hb
    · rw [if_neg]
      · rw [ih (s + 1) (by omega)]
        simp [hb]
      · simpa [byAt] using hb

/-- Under the preconditions, `is_incorrect_position` evaluates without
error to its specification `posOK1`. -/
theorem is_incorrect_position_eq {w : List Char} {arr : List (List Cell)}
    (hw : lcWord w) (h7 : w.length ≤ 7) (ha : wf_array arr) :
    is_incorrect_position w arr = .ok (posOK1 w arr) := by
  rw [is_incorrect_position, posOK1, List.range_eq_range']
  exact iip_loop_eq hw h7 ha w.length 0 (by omega)

theorem list_all_congr {α : Type} {l : List α} {f g : α → Bool}
    (h : ∀ x ∈ l, f x = g x) : l.all f = l.all g := by
  induction l with
  | nil => rfl
  | cons a l ih =>
    simp only [List.all_cons, h a (List.mem_cons_self a l),
      ih fun x hx => h x (List.mem_cons_of_mem a hx)]

theorem list_any_congr {α : Type} {l : List α} {f g : α → Bool}
    (h : ∀ x ∈ l, f x = g x) : l.any f = l.any g := by
  induction l with
  | nil => rfl
  | cons a l ih =>
    simp only [List.any_cons, h a (List.mem_cons_self a l),
      ih fun x hx => h x (List.mem_cons_of_mem a hx)]

theorem cell5_isNum {arr : List (List Cell)} (hn : num5 arr) (i : Nat) :
    (cellB arr i 5).isNum := by
  by_cases h : i < arr.length
  · exact hn _ (getD_mem_of_lt h [])
  · have hnil : arr.getD i [] = [] := by
      simp [List.getD_eq_getElem?_getD,
        List.getElem?_eq_none (Nat.le_of_not_lt h)]
    have hcell : cellB arr i 5 = Cell.cNum 0 := by
      rw [cellB, hnil]; rfl
    rw [hcell]
    rfl

theorem cellInt_cellB5 {arr : List (List Cell)} (hn : num5 arr) (i : Nat) :
    cellInt (cellB arr i 5) = .ok (rowMin arr i) := by
  have h := cell5_isNum hn i
  cases hc : cellB arr i 5 with
  | cNum n => simp [rowMin, hc, cellInt]
  | cChar c => rw [hc] at h; simp [Cell.isNum] at h
  | cBool b => simp [rowMin, hc, cellInt]

theorem cellNeInt_cellB5 {arr : List (List Cell)} (hn : num5 arr) (i : Nat)
    (m : Int) : cellNeInt (cellB arr i 5) m = !(rowMin arr i == m) := by
  have h := cell5_isNum hn i
  cases hc : cellB arr i 5 with
  | cNum n =>
    have : rowMin arr i = n := by simp [rowMin, hc, cellInt]
    rw [this]
    by_cases he : n = m <;> simp [cellNeInt, he]
  | cChar c => rw [hc] at h; simp [Cell.isNum] at h
  | cBool b =>
    have : rowMin arr i = (if b then 1 else 0) := by
      simp [rowMin, hc, cellInt]
    rw [this]
    by_cases he : (if b then (1 : Int) else 0) = m <;> simp [cellNeInt, he]

theorem icp_inner_eq {arr : List (List Cell)} (ha : wf_array arr) {i : Int}
    {j : Nat} (hj : j < 7) :
    ∀ n s, s + n = 26 →
      icp_inner arr i j (List.range' s n) =
        .ok ((List.range' s n).all fun k =>
          !(cellEqChar (cellB arr k j) 'g' && !(decide (i = (k : Int))))) := by
  intro n
  induction n with
  | zero => intro s _; rfl
  | succ m ih =>
    intro s hs
    have hsa : s < arr.length := by have := ha.1; omega
    have hrow : (arr.getD s []).length = 7 := wf_row_len ha (by omega)
    have hjr : j < (arr.getD s []).length := by omega
    rw [List.range'_succ]
    have hcell : (arr.getD s []).getD j (Cell.cNum 0) = cellB arr s j := rfl
    simp only [icp_inner, pyGet_ofNat_ok hsa [], pym_bind_ok,
      pyGet_ofNat_ok hjr (Cell.cNum 0), hcell]
    by_cases hb : cellEqChar (cellB arr s j) 'g' && !(decide (i = (s : Int)))
    · rw [if_pos hb]
      simp only [List.all_cons, hb, Bool.not_true, Bool.false_and]
    · rw [if_neg hb]
      have hb' : (cellEqChar (cellB arr s j) 'g' &&
          !(decide (i = (s : Int)))) = false := by simpa using hb
      rw [ih (s + 1) (by omega)]
      simp only [List.all_cons, hb', Bool.not_false, Bool.true_and]

theorem icp_loop_eq {w : List Char} {arr : List (List Cell)} (hw : lcWord w)
    (h7 : w.length ≤ 7) (ha : wf_array arr) :
    ∀ n s, s + n = w.length →
      icp_loop w arr (List.range' s n) =
        .ok ((List.range' s n).all fun j =>
          (List.range 26).all fun k =>
            !(cellEqChar (cellB arr k j) 'g' && !(letterIdx (wAt w j) == k))) := by
  intro n
  induction n with
  | zero => intro s _; rfl
  | succ m ih =>
    intro s hs
    have hsw : s < w.length := by omega
    have hc : lcChar (wAt w s) := hw _ (wAt_mem hsw)
    rw [List.range'_succ]
    have hwAt : w.getD s ' ' = wAt w s := rfl
    have hinner := @icp_inner_eq _ ha ((letterIdx (wAt w s) : Nat) : Int)
      s (by omega) 26 0 (by omega)
    have hlen : List.range arr.length = List.range' 0 26 := by
      rw [ha.1, List.range_eq_range']
    simp only [icp_loop, pyGet_ofNat_ok hsw ' ', pym_bind_ok, hwAt,
      lcChar_index hc, hlen, hinner]
    have hcong :
        ((List.range' 0 26).all fun k =>
          !(cellEqChar (cellB arr k s) 'g' &&
            !(decide (((letterIdx (wAt w s) : Nat) : Int) = (k : Int))))) =
        ((List.range 26).all fun k =>
          !(cellEqChar (cellB arr k s) 'g' && !(letterIdx (wAt w s) == k))) := by
      rw [List.range_eq_range']
      refine list_all_congr fun k _ => ?_
      by_cases hk : letterIdx (wAt w s) = k <;> simp [hk]
    rw [hcong]
    by_cases hb :
        (List.range 26).all fun k =>
          !(cellEqChar (cellB arr k s) 'g' && !(letterIdx (wAt w s) == k))
    · rw [if_pos hb]
      rw [ih (s + 1) (by omega)]
      simp only [List.all_cons, hb, Bool.true_and]
    · rw [if_neg hb]
      have hb' : ((List.range 26).all fun k =>
          !(cellEqChar (cellB arr k s) 'g' && !(letterIdx (wAt w s) == k)))
          = false := by simpa using hb
      simp only [List.all_cons, hb', Bool.false_and]

/-- Under the preconditions, `is_correct_position` evaluates without
error to its specification `posOK2`. -/
theorem is_correct_position_eq {w : List Char} {arr : List (List Cell)}
    (hw : lcWord w) (h7 : w.length ≤ 7) (ha : wf_array arr) :
    is_correct_position w arr = .ok (posOK2 w arr) := by
  rw [is_correct_position, posOK2, List.range_eq_range']
  exact icp_loop_eq hw h7 ha w.length 0 (by omega)

theorem iclf1_eq {w : List Char} {arr : List (List Cell)} (hw : lcWord w)
    (h7 : w.length ≤ 7) (ha : wf_array arr) (hn : num5 arr) :
    ∀ n s, s + n = w.length →
      iclf_loop1 w arr (List.range' s n) =
        .ok ((List.range' s n).all fun j =>
          if rowExact arr (letterIdx (wAt w j)) then
            rowMin arr (letterIdx (wAt w j)) == (w.count (wAt w j) : Int)
          else
            decide (rowMin arr (letterIdx (wAt w j)) ≤
              (w.count (wAt w j) : Int))) := by
  intro n
  induction n with
  | zero => intro s _; rfl
  | succ m ih =>
    intro s hs
    have hsw : s < w.length := by omega
    have hc : lcChar (wAt w s) := hw _ (wAt_mem hsw)
    have hidx : letterIdx (wAt w s) < 26 := lcChar_letterIdx_lt hc
    have hidxa : letterIdx (wAt w s) < arr.length := by
      have := ha.1; omega
    have hrow : (arr.getD (letterIdx (wAt w s)) []).length = 7 :=
      wf_row_len ha hidx
    rw [List.range'_succ]
    have hwAt : w.getD s ' ' = wAt w s := rfl
    have hc5 : (arr.getD (letterIdx (wAt w s)) []).getD 5 (Cell.cNum 0) =
        cellB arr (letterIdx (wAt w s)) 5 := rfl
    have hc6 : (arr.getD (letterIdx (wAt w s)) []).getD 6 (Cell.cNum 0) =
        cellB arr (letterIdx (wAt w s)) 6 := rfl
    have hex : cellTruthy (cellB arr (letterIdx (wAt w s)) 6) =
        rowExact arr (letterIdx (wAt w s)) := rfl
    simp only [iclf_loop1, pyGet_ofNat_ok hsw ' ', pym_bind_ok, hwAt,
      lcChar_index hc, pyGet_ofNat_ok hidxa [], pyGet_neg2 hrow (Cell.cNum 0),
      pyGet_neg1 hrow (Cell.cNum 0), hc5, hc6, hex]
    by_cases he : rowExact arr (letterIdx (wAt w s))
    · rw [if_pos he,
        cellNeInt_cellB5 hn (letterIdx (wAt w s)) ((w.count (wAt w s) : Int))]
      by_cases hm : rowMin arr (letterIdx (wAt w s)) =
          ((w.count (wAt w s) : Int))
      · rw [if_neg (by simp [hm])]
        rw [ih (s + 1) (by omega)]
        simp only [List.all_cons, if_pos he]
        simp [hm]
      · rw [if_pos (by simp [hm])]
        simp only [List.all_cons, if_pos he]
        simp [hm]
    · rw [if_neg he, cellInt_cellB5 hn (letterIdx (wAt w s)), pym_bind_ok]
      by_cases hm : rowMin arr (letterIdx (wAt w s)) >
          ((w.count (wAt w s) : Int))
      · rw [if_pos hm]
        simp only [List.all_cons, if_neg he]
        have : ¬ (rowMin arr (letterIdx (wAt w s)) ≤
            ((w.count (wAt w s) : Int))) := by omega
        simp [this]
      · rw [if_neg hm]
        rw [ih (s + 1) (by omega)]
        simp only [List.all_cons, if_neg he]
        have : rowMin arr (letterIdx (wAt w s)) ≤
            ((w.count (wAt w s) : Int)) := by omega
        simp [this]

theorem iclf2_eq {w : List Char} {arr : List (List Cell)}
    (ha : wf_array arr) (hn : num5 arr) :
    ∀ n s, s + n = 26 →
      iclf_loop2 w arr (List.range' s n) =
        .ok ((List.range' s n).all fun k =>
          !(decide ((1 : Int) ≤ rowMin arr k)) ||
            decide (Char.ofNat (k + 'a'.toNat) ∈ w)) := by
  intro n
  induction n with
  | zero => intro s _; rfl
  | succ m ih =>
    intro s hs
    have hsa : s < arr.length := by have := ha.1; omega
    have hrow : (arr.getD s []).length = 7 := wf_row_len ha (by omega)
    rw [List.range'_succ]
    have hc5 : (arr.getD s []).getD 5 (Cell.cNum 0) = cellB arr s 5 := rfl
    simp only [iclf_loop2, pyGet_ofNat_ok hsa [], pym_bind_ok,
      pyGet_neg2 hrow (Cell.cNum 0), hc5, cellInt_cellB5 hn s]
    by_cases h1 : (1 : Int) ≤ rowMin arr s
    · rw [if_pos (by exact h1)]
      by_cases h2 : Char.ofNat (s + 'a'.toNat) ∈ w
      · rw [if_neg (fun hh => hh h2)]
        rw [ih (s + 1) (by omega)]
        have hd2 : decide (Char.ofNat (s + 'a'.toNat) ∈ w) = true :=
          decide_eq_true h2
        simp only [List.all_cons, hd2, Bool.or_true, Bool.true_and]
      · rw [if_pos h2]
        have hd1 : decide ((1 : Int) ≤ rowMin arr s) = true :=
          decide_eq_true h1
        have hd2 : decide (Char.ofNat (s + 'a'.toNat) ∈ w) = false :=
          decide_eq_false h2
        simp only [List.all_cons, hd1, hd2, Bool.not_true, Bool.false_or,
          Bool.false_and]
    · rw [if_neg (by exact h1)]
      rw [ih (s + 1) (by omega)]
      have hd1 : decide ((1 : Int) ≤ rowMin arr s) = false :=
        decide_eq_false h1
      simp only [List.all_cons, hd1, Bool.not_false, Bool.true_or,
        Bool.true_and]

/-- Under the preconditions, `is_correct_letter_frequencies` evaluates
without error to its specification. -/
theorem iclf_eq {w : List Char} {arr : List (List Cell)} (hw : lcWord w)
    (h7 : w.length ≤ 7) (ha : wf_array arr) (hn : num5 arr) :
    is_correct_letter_frequencies w arr = .ok (freqOK1 w arr && freqOK2 w arr) := by
  rw [is_correct_letter_frequencies]
  have h1 := iclf1_eq hw h7 ha hn w.length 0 (by omega)
  rw [List.range_eq_range', h1, pym_bind_ok]
  have hfr1 : ((List.range' 0 w.length).all fun j =>
      if rowExact arr (letterIdx (wAt w j)) then
        rowMin arr (letterIdx (wAt w j)) == (w.count (wAt w j) : Int)
      else
        decide (rowMin arr (letterIdx (wAt w j)) ≤
          (w.count (wAt w j) : Int))) = freqOK1 w arr := by
    rw [freqOK1, List.range_eq_range']
  rw [hfr1]
  by_cases hb : freqOK1 w arr
  · rw [if_pos hb]
    have h2 := @iclf2_eq w _ ha hn 26 0 (by omega)
    have hlen : List.range arr.length = List.range' 0 26 := by
      rw [ha.1, List.range_eq_range']
    rw [hlen, h2]
    have hfr2 : ((List.range' 0 26).all fun k =>
        !(decide ((1 : Int) ≤ rowMin arr k)) ||
          decide (Char.ofNat (k + 'a'.toNat) ∈ w)) = freqOK2 w arr := by
      rw [freqOK2, List.range_eq_range']
    rw [hfr2, hb]
    simp only [Bool.true_and]
  · rw [if_neg hb]
    have hb' : freqOK1 w arr = false := by simpa using hb
    rw [hb']
    simp only [Bool.false_and]

/-- Under the preconditions (lowercase word of length at most 7, a 26 x 7
array whose stored counts are numeric), `valid_guess` evaluates without
error to its specification `validB`. -/
theorem valid_guess_eq {w : List Char} {arr : List (List Cell)}
    (hw : lcWord w) (h7 : w.length ≤ 7) (ha : wf_array arr) (hn : num5 arr) :
    valid_guess w arr = .ok (validB w arr) := by
  rw [valid_guess, is_incorrect_position_eq hw h7 ha, pym_bind_ok, validB]
  by_cases h1 : posOK1 w arr
  · rw [if_pos h1, is_correct_position_eq hw h7 ha, pym_bind_ok]
    by_cases h2 : posOK2 w arr
    · rw [if_pos h2, iclf_eq hw h7 ha hn, h1, h2]
      simp only [Bool.true_and, Bool.and_assoc]
    · rw [if_neg h2]
      have h2' : posOK2 w arr = false := by simpa using h2
      rw [h2']
      simp [h1]
  · rw [if_neg h1]
    have h1' : posOK1 w arr = false := by simpa using h1
    rw [h1']
    simp

theorem getD_set_self {α : Type} {l : List α} {i : Nat} (h : i < l.length)
    (v d : α) : (l.set i v).getD i d = v := by
  simp [List.getD_eq_getElem?_getD, List.getElem?_set_self h]

theorem getD_set_ne {α : Type} {l : List α} {i j : Nat} (h : i ≠ j)
    (v d : α) : (l.set i v).getD j d = l.getD j d := by
  simp [List.getD_eq_getElem?_getD, List.getElem?_set_ne h]

theorem cellB_set_self {arr : List (List Cell)} {row' : List Cell}
    {i : Nat} (h : i < arr.length) (j : Nat) :
    cellB (arr.set i row') i j = row'.getD j (.cNum 0) := by
  rw [cellB, getD_set_self h]

theorem cellB_set_ne {arr : List (List Cell)} {row' : List Cell}
    {i i' : Nat} (h : i ≠ i') (j : Nat) :
    cellB (arr.set i row') i' j = cellB arr i' j := by
  rw [cellB, getD_set_ne h]
  rfl

theorem wf_array_set {arr : List (List Cell)} {row' : List Cell} {i : Nat}
    (ha : wf_array arr) (h7 : row'.length = 7) :
    wf_array (arr.set i row') := by
  refine ⟨by simp [ha.1], fun row hr => ?_⟩
  rcases List.mem_or_eq_of_mem_set hr with h | h
  · exact ha.2 _ h
  · rw [h]; exact h7

theorem lcChar_letterChar {c : Char} (h : lcChar c) :
    letterChar (letterIdx c) = c := by
  have ha : 'a'.toNat = 97 := rfl
  have h1 : letterIdx c + 'a'.toNat = c.toNat := by
    obtain ⟨hl, _⟩ := h
    simp only [letterIdx, ha] at *
    omega
  rw [letterChar, h1, Char.ofNat_toNat]

theorem clf_loop_eq {letter : Char} {guess check : List Char}
    (hlen : guess.length ≤ check.length) :
    ∀ n s (cnt : Int) (ex : Bool), s + n = guess.length →
      clf_loop letter guess check (List.range' s n) cnt ex =
        .ok (cnt + ((List.range' s n).countP fun i =>
              decide ((wAt check i = 'g' ∨ wAt check i = 'y') ∧
                wAt guess i = letter) : Nat),
             ex || ((List.range' s n).any fun i =>
              decide (wAt check i = 'b' ∧ wAt guess i = letter))) := by
  intro n
  induction n with
  | zero =>
    intro s cnt ex _
    simp [clf_loop]
  | succ m ih =>
    intro s cnt ex hs
    have hsg : s < guess.length := by omega
    have hsc : s < check.length := by omega
    rw [List.range'_succ]
    have hg : guess.getD s ' ' = wAt guess s := rfl
    have hc : check.getD s ' ' = wAt check s := rfl
    simp only [clf_loop, pyGet_ofNat_ok hsc ' ', pym_bind_ok,
      pyGet_ofNat_ok hsg ' ', hg, hc]
    rw [ih (s + 1) _ _ (by omega)]
    by_cases hp : (wAt check s = 'g' ∨ wAt check s = 'y') ∧
        wAt guess s = letter
    · by_cases hq : wAt check s = 'b' ∧ wAt guess s = letter
      · exfalso
        rcases hp.1 with h | h <;> rw [hq.1] at h <;> exact absurd h (by decide)
      · rw [if_pos hp, if_neg hq]
        simp only [Except.ok.injEq, Prod.mk.injEq]
        constructor
        · rw [List.countP_cons_of_pos (fun i =>
            decide ((wAt check i = 'g' ∨ wAt check i = 'y') ∧
              wAt guess i = letter)) _ (by exact decide_eq_true hp)]
          push_cast
          ring
        · rw [List.any_cons, decide_eq_false hq]
          simp
    · by_cases hq : wAt check s = 'b' ∧ wAt guess s = letter
      · rw [if_neg hp, if_pos hq]
        simp only [Except.ok.injEq, Prod.mk.injEq]
        constructor
        · rw [List.countP_cons_of_neg (fun i =>
            decide ((wAt check i = 'g' ∨ wAt check i = 'y') ∧
              wAt guess i = letter)) _ (by simpa using hp)]
        · rw [List.any_cons, decide_eq_true hq]
          simp
      · rw [if_neg hp, if_neg hq]
        simp only [Except.ok.injEq, Prod.mk.injEq]
        constructor
        · rw [List.countP_cons_of_neg (fun i =>
            decide ((wAt check i = 'g' ∨ wAt check i = 'y') ∧
              wAt guess i = letter)) _ (by simpa using hp)]
        · rw [List.any_cons, decide_eq_false hq]
          simp

/-- Under the length precondition `compute_letter_freq` evaluates without
error to its specification. -/
theorem compute_letter_freq_eq {letter : Char} {guess check : List Char}
    (hlen : guess.length ≤ check.length) :
    compute_letter_freq letter guess check =
      .ok ((clfCount letter guess check : Int), clfExact letter guess check) := by
  rw [compute_letter_freq, List.range_eq_range',
    clf_loop_eq hlen guess.length 0 0 false (by omega)]
  rw [clfCount, clfExact, List.range_eq_range']
  simp

theorem ga_loop_eq {guess check : List Char} (hg : lcWord guess)
    (hg5 : guess.length = 5) (hck5 : check.length = 5) :
    ∀ n s arr, s + n = 5 → wf_array arr →
      ∃ A, ga_loop guess check (List.range' s n) arr = .ok A ∧ wf_array A ∧
        (∀ i j, j < 5 →
          cellB A i j =
            if s ≤ j ∧ j < s + n ∧ letterIdx (wAt guess j) = i
            then Cell.cChar (wAt check j) else cellB arr i j) ∧
        (∀ i, rowHit guess (List.range' s n) i →
          cellB A i 5 = Cell.cNum (clfCount (letterChar i) guess check) ∧
          cellB A i 6 = Cell.cBool (clfExact (letterChar i) guess check)) ∧
        (∀ i, ¬ rowHit guess (List.range' s n) i →
          cellB A i 5 = cellB arr i 5 ∧ cellB A i 6 = cellB arr i 6) := by
  intro n
  induction n with
  | zero =>
    intro s arr hs ha
    refine ⟨arr, rfl, ha, ?_, ?_, ?_⟩
    · intro i j hj
      rw [if_neg (by omega)]
    · intro i hi
      simp [rowHit] at hi
    · intro i _
      exact ⟨rfl, rfl⟩
  | succ m ih =>
    intro s arr hs ha
    have hsg : s < guess.length := by omega
    have hsc : s < check.length := by omega
    have hc : lcChar (wAt guess s) := hg _ (wAt_mem hsg)
    have hidx : letterIdx (wAt guess s) < 26 := lcChar_letterIdx_lt hc
    have hidxa : letterIdx (wAt guess s) < arr.length := by
      have := ha.1; omega
    have hrow : (arr.getD (letterIdx (wAt guess s)) []).length = 7 :=
      wf_row_len ha hidx
    have hlen : guess.length ≤ check.length := by omega
    rw [List.range'_succ]
    have hwg : guess.getD s ' ' = wAt guess s := rfl
    have hwc : check.getD s ' ' = wAt check s := rfl
    have hclf := @compute_letter_freq_eq (wAt guess s) guess check hlen
    have hset1 := @pySet2_nat arr (letterIdx (wAt guess s))
      s hidxa (by omega) (Cell.cChar (wAt check s))
    have hidxa1 : letterIdx (wAt guess s) <
        (arr.set (letterIdx (wAt guess s))
          ((arr.getD (letterIdx (wAt guess s)) []).set s
            (Cell.cChar (wAt check s)))).length := by
      simpa using hidxa
    have h71 : ((arr.set (letterIdx (wAt guess s))
        ((arr.getD (letterIdx (wAt guess s)) []).set s
          (Cell.cChar (wAt check s)))).getD
        (letterIdx (wAt guess s)) []).length = 7 := by
      rw [getD_set_self hidxa]
      simpa using hrow
    have hset2 := pySet2_neg2 hidxa1 h71
      (Cell.cNum ((clfCount (wAt guess s) guess check : Nat) : Int))
    rw [getD_set_self hidxa, List.set_set] at hset2
    have hidxa2 : letterIdx (wAt guess s) <
        (arr.set (letterIdx (wAt guess s))
          (((arr.getD (letterIdx (wAt guess s)) []).set s
            (Cell.cChar (wAt check s))).set 5
            (Cell.cNum ((clfCount (wAt guess s) guess check : Nat) : Int)))).length := by
      simpa using hidxa
    have h72 : ((arr.set (letterIdx (wAt guess s))
        (((arr.getD (letterIdx (wAt guess s)) []).set s
          (Cell.cChar (wAt check s))).set 5
          (Cell.cNum ((clfCount (wAt guess s) guess check : Nat) : Int)))).getD
        (letterIdx (wAt guess s)) []).length = 7 := by
      rw [getD_set_self hidxa]
      simpa using hrow
    have hset3 := pySet2_neg1 hidxa2 h72
      (Cell.cBool (clfExact (wAt guess s) guess check))
    rw [getD_set_self hidxa, List.set_set] at hset3
    simp only [ga_loop, pyGet_ofNat_ok hsg ' ', pym_bind_ok, hwg,
      lcChar_index hc, hclf, pyGet_ofNat_ok hsc ' ', hwc, hset1, hset2, hset3]
    have hwf3 : wf_array (arr.set (letterIdx (wAt guess s))
        ((((arr.getD (letterIdx (wAt guess s)) []).set s
          (Cell.cChar (wAt check s))).set 5
          (Cell.cNum ((clfCount (wAt guess s) guess check : Nat) : Int))).set 6
          (Cell.cBool (clfExact (wAt guess s) guess check)))) := by
      refine wf_array_set ha ?_
      simpa using hrow
    obtain ⟨A, hA, hwfA, hcells, hhit, hmiss⟩ :=
      ih (s + 1) _ (by omega) hwf3
    refine ⟨A, hA, hwfA, ?_, ?_, ?_⟩
    · intro i j hj
      rw [hcells i j hj]
      by_cases h1 : s + 1 ≤ j ∧ j < s + 1 + m ∧ letterIdx (wAt guess j) = i
      · rw [if_pos h1, if_pos (show s ≤ j ∧ j < s + (m + 1) ∧
          letterIdx (wAt guess j) = i from ⟨by omega, by omega, h1.2.2⟩)]
      · rw [if_neg h1]
        by_cases h2 : j = s ∧ i = letterIdx (wAt guess s)
        · obtain ⟨hjs, hii⟩ := h2
          subst hjs
          subst hii
          rw [if_pos ⟨by omega, by omega, rfl⟩]
          rw [cellB_set_self hidxa]
          rw [getD_set_ne (by omega), getD_set_ne (by omega),
            getD_set_self (by omega)]
        · have h3 : ¬ (s ≤ j ∧ j < s + (m + 1) ∧
              letterIdx (wAt guess j) = i) := by
            intro ⟨ha1, ha2, ha3⟩
            rcases Nat.lt_or_ge s j with hlt | hge
            · exact h1 ⟨by omega, by omega, ha3⟩
            · have hjs : j = s := by omega
              exact h2 ⟨hjs, by rw [← ha3, hjs]⟩
          rw [if_neg h3]
          by_cases h4 : i = letterIdx (wAt guess s)
          · subst h4
            rw [cellB_set_self hidxa]
            rw [getD_set_ne (by omega), getD_set_ne (by omega),
              getD_set_ne (by intro hh; exact h2 ⟨hh.symm, rfl⟩)]
            rfl
          · rw [cellB_set_ne (fun hh => h4 hh.symm)]
    · intro i hi
      by_cases h4 : rowHit guess (List.range' (s + 1) m) i
      · exact hhit i h4
      · obtain ⟨h5, h6⟩ := hmiss i h4
        have hii : i = letterIdx (wAt guess s) := by
          rw [rowHit] at hi
          simp only [List.any_cons, Bool.or_eq_true] at hi
          rcases hi with hi | hi
          · exact (by simpa using hi : letterIdx (wAt guess s) = i).symm
          · exact absurd (by rw [rowHit]; exact hi) h4
        subst hii
        constructor
        · rw [h5, cellB_set_self hidxa]
          rw [getD_set_ne (by omega),
            getD_set_self (by rw [List.length_set, hrow]; omega)]
          rw [lcChar_letterChar hc]
        · rw [h6, cellB_set_self hidxa]
          rw [getD_set_self
            (by rw [List.length_set, List.length_set, hrow]; omega)]
          rw [lcChar_letterChar hc]
    · intro i hi
      rw [rowHit] at hi
      simp only [List.any_cons, Bool.or_eq_true, not_or] at hi
      obtain ⟨hi1, hi2⟩ := hi
      have h4 : ¬ rowHit guess (List.range' (s + 1) m) i := by
        rw [rowHit]; exact hi2
      obtain ⟨h5, h6⟩ := hmiss i h4
      have hne : letterIdx (wAt guess s) ≠ i := by
        intro hh
        exact hi1 (by simp [hh])
      constructor
      · rw [h5, cellB_set_ne hne]
      · rw [h6, cellB_set_ne hne]

theorem letterIdx_letterChar : ∀ i < 26, letterIdx (letterChar i) = i := by
  decide

theorem lcChar_letterChar' : ∀ i < 26, lcChar (letterChar i) := by decide

theorem wAt_eq_getElem {w : List Char} {j : Nat} (h : j < w.length) :
    wAt w j = w.get ⟨j, h⟩ := by
  simp [wAt, List.getD_eq_getElem?_getD, List.getElem?_eq_getElem h]

/-- Membership of the letter with index `i` in a lowercase word is the
same as some position of the word having letter index `i`. -/
theorem rowHit_iff_mem {guess : List Char} (hg : lcWord guess)
    (hg5 : guess.length = 5) {i : Nat} (hi : i < 26) :
    rowHit guess (List.range 5) i = true ↔ letterChar i ∈ guess := by
  rw [rowHit]
  simp only [List.any_eq_true, List.mem_range]
  constructor
  · rintro ⟨t, ht, hbeq⟩
    have hidx : letterIdx (wAt guess t) = i := by simpa using hbeq
    have hw : wAt guess t ∈ guess := wAt_mem (by omega)
    have hlc := hg _ hw
    rw [← hidx, lcChar_letterChar hlc]
    exact hw
  · intro hmem
    obtain ⟨t, ht, hteq⟩ := List.getElem_of_mem hmem
    refine ⟨t, by omega, ?_⟩
    have : wAt guess t = letterChar i := by
      rw [wAt_eq_getElem (by omega)]
      exact hteq
    simp [this, letterIdx_letterChar i hi]

/-- Full description of a successful `generate_array` call on 5-letter
lowercase input: position cells of the guessed letters are overwritten
with the check colours, the count and flag cells of every guessed letter
are overwritten with the `compute_letter_freq` values of this call alone,
and all other cells are unchanged. -/
theorem generate_array_eq {guess check : List Char} {arr : List (List Cell)}
    (hg : lcWord guess) (hg5 : guess.length = 5) (hck5 : check.length = 5)
    (ha : wf_array arr) :
    ∃ A, generate_array guess check arr = .ok A ∧ wf_array A ∧
      (∀ i j, j < 5 → cellB A i j =
        if letterIdx (wAt guess j) = i then Cell.cChar (wAt check j)
        else cellB arr i j) ∧
      (∀ i, rowHit guess (List.range 5) i →
        cellB A i 5 = Cell.cNum (clfCount (letterChar i) guess check) ∧
        cellB A i 6 = Cell.cBool (clfExact (letterChar i) guess check)) ∧
      (∀ i, ¬ rowHit guess (List.range 5) i →
        cellB A i 5 = cellB arr i 5 ∧ cellB A i 6 = cellB arr i 6) := by
  obtain ⟨A, hA, hwfA, hcells, hhit, hmiss⟩ :=
    ga_loop_eq hg hg5 hck5 5 0 arr (by omega) ha
  rw [generate_array, hg5, List.range_eq_range']
  refine ⟨A, hA, hwfA, ?_, ?_, ?_⟩
  · intro i j hj
    rw [hcells i j hj]
    by_cases h : letterIdx (wAt guess j) = i
    · rw [if_pos ⟨by omega, by omega, h⟩, if_pos h]
    · rw [if_neg (by intro hh; exact h hh.2.2), if_neg h]
  · intro i hi
    exact hhit i hi
  · intro i hi
    exact hmiss i hi

theorem wf_init_array : wf_array init_array := by decide

theorem num5_init_array : num5 init_array := by decide

theorem num5_of_cells {A : List (List Cell)} (hwf : wf_array A)
    (h : ∀ i < 26, (cellB A i 5).isNum) : num5 A := by
  intro row hrow
  obtain ⟨i, hi, hieq⟩ := List.getElem_of_mem hrow
  have hi26 : i < 26 := by have := hwf.1; omega
  have hrowD : A.getD i [] = row := by
    simp [List.getD_eq_getElem?_getD, List.getElem?_eq_getElem hi, hieq]
  have := h i hi26
  rw [cellB, hrowD] at this
  exact this

/-- A successful `generate_array` call preserves the numeric-count-cell
invariant. -/
theorem generate_array_num5 {guess check : List Char}
    {arr A : List (List Cell)} (hg : lcWord guess) (hg5 : guess.length = 5)
    (hck5 : check.length = 5) (ha : wf_array arr) (hn : num5 arr)
    (hA : generate_array guess check arr = .ok A) : num5 A := by
  obtain ⟨A', hA', hwfA, _, hhit, hmiss⟩ := generate_array_eq hg hg5 hck5 ha
  rw [hA'] at hA
  obtain rfl : A' = A := by injection hA
  refine num5_of_cells hwfA fun i hi => ?_
  by_cases h : rowHit guess (List.range 5) i
  · rw [(hhit i h).1]
    rfl
  · rw [(hmiss i h).1]
    exact cell5_isNum hn i

theorem posOK1_iff {w : List Char} {arr : List (List Cell)} :
    posOK1 w arr = true ↔ ∀ j < w.length, byAt w arr j = false := by
  simp [posOK1, List.all_eq_true, List.mem_range]

theorem posOK2_iff {w : List Char} {arr : List (List Cell)} :
    posOK2 w arr = true ↔ ∀ j < w.length, ∀ k < 26,
      cellEqChar (cellB arr k j) 'g' = true → letterIdx (wAt w j) = k := by
  simp only [posOK2, List.all_eq_true, List.mem_range]
  constructor
  · intro h j hj k hk hg
    have := h j hj k hk
    rw [hg] at this
    simpa using this
  · intro h j hj k hk
    by_cases hg : cellEqChar (cellB arr k j) 'g' = true
    · have := h j hj k hk hg
      simp [hg, this]
    · simp [Bool.eq_false_iff.mpr hg]

theorem freqOK1_iff {w : List Char} {arr : List (List Cell)} :
    freqOK1 w arr = true ↔ ∀ j < w.length,
      (rowExact arr (letterIdx (wAt w j)) = true →
        rowMin arr (letterIdx (wAt w j)) = (w.count (wAt w j) : Int)) ∧
      (rowExact arr (letterIdx (wAt w j)) = false →
        rowMin arr (letterIdx (wAt w j)) ≤ (w.count (wAt w j) : Int)) := by
  simp only [freqOK1, List.all_eq_true, List.mem_range]
  constructor
  · intro h j hj
    have := h j hj
    constructor
    · intro he
      rw [if_pos he] at this
      simpa using this
    · intro he
      rw [if_neg (by simp [he])] at this
      simpa using this
  · intro h j hj
    obtain ⟨h1, h2⟩ := h j hj
    by_cases he : rowExact arr (letterIdx (wAt w j)) = true
    · rw [if_pos he]
      simp [h1 he]
    · rw [if_neg he]
      simp [h2 (Bool.eq_false_iff.mpr he)]

theorem freqOK2_iff {w : List Char} {arr : List (List Cell)} :
    freqOK2 w arr = true ↔ ∀ k < 26,
      (1 : Int) ≤ rowMin arr k → letterChar k ∈ w := by
  simp only [freqOK2, List.all_eq_true, List.mem_range, letterChar]
  constructor
  · intro h k hk h1
    have := h k hk
    rw [decide_eq_true h1] at this
    simpa using this
  · intro h k hk
    by_cases h1 : (1 : Int) ≤ rowMin arr k
    · rw [decide_eq_true h1]
      simpa using h k hk h1
    · rw [decide_eq_false h1]
      simp

theorem validB_iff {w : List Char} {arr : List (List Cell)} :
    validB w arr = true ↔ posOK1 w arr = true ∧ posOK2 w arr = true ∧
      freqOK1 w arr = true ∧ freqOK2 w arr = true := by
  simp [validB, Bool.and_eq_true, and_assoc]

/-- A successful `generate_array` call yields a well-shaped array. -/
theorem generate_array_wf {guess check : List Char}
    {arr A : List (List Cell)} (hg : lcWord guess) (hg5 : guess.length = 5)
    (hck5 : check.length = 5) (ha : wf_array arr)
    (hA : generate_array guess check arr = .ok A) : wf_array A := by
  obtain ⟨A', hA', hwf, _, _, _⟩ := generate_array_eq hg hg5 hck5 ha
  rw [hA'] at hA
  obtain rfl : A' = A := by injection hA
  exact hwf

/-- When every letter of the guess had a fresh (all-zero) row, each old
cell is either the fresh zero (for rows of guessed letters) or survives
unchanged into the updated array. -/
theorem ga_cell_cases {guess check : List Char} {arr A : List (List Cell)}
    (hg : lcWord guess) (hg5 : guess.length = 5) (hck5 : check.length = 5)
    (ha : wf_array arr)
    (hvirgin : ∀ i < 26, letterChar i ∈ guess →
      ∀ j < 7, cellB arr i j = Cell.cNum 0)
    (hA : generate_array guess check arr = .ok A) :
    ∀ i < 26, ∀ j < 7,
      (letterChar i ∈ guess → cellB arr i j = Cell.cNum 0) ∧
      (letterChar i ∉ guess → cellB arr i j = cellB A i j) := by
  obtain ⟨A', hA', hwf, hcells, hhit, hmiss⟩ := generate_array_eq hg hg5 hck5 ha
  rw [hA'] at hA
  obtain rfl : A' = A := by injection hA
  intro i hi j hj
  refine ⟨fun hmem => hvirgin i hi hmem j hj, fun hmem => ?_⟩
  have hnh : ¬ rowHit guess (List.range 5) i = true := fun hh =>
    hmem ((rowHit_iff_mem hg hg5 hi).mp hh)
  rcases Nat.lt_or_ge j 5 with h5 | h5
  · rw [hcells i j h5]
    rw [if_neg ?hne]
    case hne =>
      intro heq
      apply hnh
      rw [rowHit]
      simp only [List.any_eq_true, List.mem_range]
      exact ⟨j, by omega, by simp [heq]⟩
  · interval_cases j
    · exact ((hmiss i hnh).1).symm
    · exact ((hmiss i hnh).2).symm

/-- Monotonicity of the candidate predicate for a guess whose letters had
no prior information: the updated array only adds constraints. -/
theorem validB_mono {guess check w : List Char} {arr A : List (List Cell)}
    (hg : lcWord guess) (hg5 : guess.length = 5) (hck5 : check.length = 5)
    (hw : lcWord w) (hw5 : w.length = 5) (ha : wf_array arr)
    (hvirgin : ∀ i < 26, letterChar i ∈ guess →
      ∀ j < 7, cellB arr i j = Cell.cNum 0)
    (hA : generate_array guess check arr = .ok A) :
    validB w A = true → validB w arr = true := by
  intro hvA
  obtain ⟨hp1, hp2, hf1, hf2⟩ := validB_iff.mp hvA
  have hcases := ga_cell_cases hg hg5 hck5 ha hvirgin hA
  have hrowMin : ∀ i < 26, (letterChar i ∈ guess → rowMin arr i = 0) ∧
      (letterChar i ∉ guess → rowMin arr i = rowMin A i) := by
    intro i hi
    obtain ⟨hc1, hc2⟩ := hcases i hi 5 (by omega)
    constructor
    · intro hmem
      rw [rowMin, hc1 hmem]
      rfl
    · intro hmem
      rw [rowMin, hc2 hmem, rowMin]
  have hrowExact : ∀ i < 26, (letterChar i ∈ guess → rowExact arr i = false) ∧
      (letterChar i ∉ guess → rowExact arr i = rowExact A i) := by
    intro i hi
    obtain ⟨hc1, hc2⟩ := hcases i hi 6 (by omega)
    constructor
    · intro hmem
      rw [rowExact, hc1 hmem]
      rfl
    · intro hmem
      rw [rowExact, hc2 hmem, rowExact]
  refine validB_iff.mpr ⟨?_, ?_, ?_, ?_⟩
  · -- black and yellow position marks
    refine posOK1_iff.mpr fun j hj => ?_
    have hc : lcChar (wAt w j) := hw _ (wAt_mem hj)
    have hidx : letterIdx (wAt w j) < 26 := lcChar_letterIdx_lt hc
    obtain ⟨hc1, hc2⟩ := hcases (letterIdx (wAt w j)) hidx j (by omega)
    by_cases hmem : letterChar (letterIdx (wAt w j)) ∈ guess
    · rw [byAt, hc1 hmem]
      rfl
    · rw [byAt, hc2 hmem]
      exact posOK1_iff.mp hp1 j hj
  · -- green position marks
    refine posOK2_iff.mpr fun j hj k hk hcell => ?_
    obtain ⟨hc1, hc2⟩ := hcases k hk j (by omega)
    by_cases hmem : letterChar k ∈ guess
    · rw [hc1 hmem] at hcell
      exact absurd hcell (by simp [cellEqChar])
    · rw [hc2 hmem] at hcell
      exact posOK2_iff.mp hp2 j hj k hk hcell
  · -- per-letter frequency bounds
    refine freqOK1_iff.mpr fun j hj => ?_
    have hc : lcChar (wAt w j) := hw _ (wAt_mem hj)
    have hidx : letterIdx (wAt w j) < 26 := lcChar_letterIdx_lt hc
    by_cases hmem : letterChar (letterIdx (wAt w j)) ∈ guess
    · have hm0 : rowMin arr (letterIdx (wAt w j)) = 0 :=
        (hrowMin _ hidx).1 hmem
      have he0 : rowExact arr (letterIdx (wAt w j)) = false :=
        (hrowExact _ hidx).1 hmem
      refine ⟨fun he => absurd (he0 ▸ he) (by simp), fun _ => ?_⟩
      rw [hm0]
      positivity
    · have hm0 : rowMin arr (letterIdx (wAt w j)) = rowMin A (letterIdx (wAt w j)) :=
        (hrowMin _ hidx).2 hmem
      have he0 : rowExact arr (letterIdx (wAt w j)) =
          rowExact A (letterIdx (wAt w j)) :=
        (hrowExact _ hidx).2 hmem
      rw [hm0, he0]
      exact freqOK1_iff.mp hf1 j hj
  · -- letters known present
    refine freqOK2_iff.mpr fun k hk h1 => ?_
    by_cases hmem : letterChar k ∈ guess
    · rw [(hrowMin k hk).1 hmem] at h1
      omega
    · rw [(hrowMin k hk).2 hmem] at h1
      exact freqOK2_iff.mp hf2 k hk h1

theorem pym_match_ok (b : Bool) :
    (match (Except.ok b : PyM Bool) with
      | .ok true => true
      | _ => false) = b := by
  cases b <;> rfl

theorem candidates_mem {dict : List (List Char)} {arr : List (List Cell)}
    {w : List Char} :
    w ∈ candidates dict arr ↔ w ∈ dict ∧ valid_guess w arr = .ok true := by
  rw [candidates, List.mem_filter]
  refine and_congr_right fun _ => ?_
  cases h : valid_guess w arr with
  | ok b => cases b <;> simp
  | error e => simp

/-- Claim C3, counterexample: starting from the all-zero array, the call
`generate_array("aaaaa", "gbbbb")` sets the exact-count flag of letter
`a` (stored at `array[0][-1]`) to `True`, and the later call
`generate_array("azzzz", "gbbbb")` on the same array resets it to
`False`: the flag does revert, contradicting the claimed monotonicity. -/
theorem C3_counterexample :
    (do
      let a1 ← generate_array "aaaaa".toList "gbbbb".toList init_array
      let r1 ← pyGet a1 0
      let v1 ← pyGet r1 (-1)
      let a2 ← generate_array "azzzz".toList "gbbbb".toList a1
      let r2 ← pyGet a2 0
      let v2 ← pyGet r2 (-1)
      pure (v1, v2) : PyM (Cell × Cell)) =
    .ok (.cBool true, .cBool false) := by decide

/-- Claim C3, amended: a `generate_array` call stores, for every letter
occurring in the guess, exactly the count and exactness flag computed by
`compute_letter_freq` from this call alone (overwriting without regard to
monotone accumulation), and leaves the stored count and flag of every
other letter unchanged. -/
theorem C3_overwrite_update {guess check : List Char}
    {arr A : List (List Cell)} (hg : lcWord guess) (hg5 : guess.length = 5)
    (hck5 : check.length = 5) (ha : wf_array arr)
    (hA : generate_array guess check arr = .ok A) :
    ∀ i < 26,
      (letterChar i ∈ guess →
        cellB A i 5 = Cell.cNum (clfCount (letterChar i) guess check) ∧
        cellB A i 6 = Cell.cBool (clfExact (letterChar i) guess check)) ∧
      (letterChar i ∉ guess →
        cellB A i 5 = cellB arr i 5 ∧ cellB A i 6 = cellB arr i 6) := by
  obtain ⟨A', hA', hwf, hcells, hhit, hmiss⟩ := generate_array_eq hg hg5 hck5 ha
  rw [hA'] at hA
  obtain rfl : A' = A := by injection hA
  intro i hi
  constructor
  · intro hmem
    exact hhit i ((rowHit_iff_mem hg hg5 hi).mpr hmem)
  · intro hmem
    exact hmiss i fun hh => hmem ((rowHit_iff_mem hg hg5 hi).mp hh)

/-- Witness for the amended claim C3 at a concrete input. -/
theorem C3_witness :
    lcWord "azzzz".toList ∧ wf_array init_array ∧
    (∀ i < 26,
      (letterChar i ∈ "azzzz".toList →
        cellB (pyForce [] (generate_array "azzzz".toList "gbbbb".toList
          init_array)) i 5 =
          Cell.cNum (clfCount (letterChar i) "azzzz".toList "gbbbb".toList) ∧
        cellB (pyForce [] (generate_array "azzzz".toList "gbbbb".toList
          init_array)) i 6 =
          Cell.cBool (clfExact (letterChar i) "azzzz".toList "gbbbb".toList)) ∧
      (letterChar i ∉ "azzzz".toList →
        cellB (pyForce [] (generate_array "azzzz".toList "gbbbb".toList
          init_array)) i 5 = cellB init_array i 5 ∧
        cellB (pyForce [] (generate_array "azzzz".toList "gbbbb".toList
          init_array)) i 6 = cellB init_array i 6)) :=
  ⟨by decide, by decide,
    C3_overwrite_update (by decide) (by decide) (by decide) (by decide)
      (by decide)⟩

/-- Claim C4, counterexample: with the dictionary `["ccade"]`, the array
built by `generate_array("aabbb", "yybbb")` from the all-zero array has
an empty candidate set, while incorporating the further pair
`("abbbb", "ybbbb")` makes `"ccade"` valid again: the candidate set grows
from the empty set to `["ccade"]`, so it is not a subset of the previous
candidate set. -/
theorem C4_counterexample :
    ((do
      let a1 ← generate_array "aabbb".toList "yybbb".toList init_array
      let a2 ← generate_array "abbbb".toList "ybbbb".toList a1
      pure (candidates ["ccade".toList] a1, candidates ["ccade".toList] a2)
      : PyM (List (List Char) × List (List Char))) =
      .ok ([], ["ccade".toList])) ∧
    ¬ (["ccade".toList] : List (List Char)) ⊆ [] :=
  ⟨by decide, fun h => absurd (h (List.mem_singleton_self _))
    (List.not_mem_nil _)⟩

/-- Claim C4, amended: incorporating a further (guess, feedback) pair can
only shrink the candidate set when no letter of the new guess carries any
prior information (its rows in the array are still all-zero); in general
the overwrite semantics of `generate_array` can enlarge the candidate
set, as the counterexample shows. -/
theorem C4_fresh_letters_monotone {dict : List (List Char)}
    {guess check : List Char} {arr A : List (List Cell)}
    (hdict : ∀ w ∈ dict, lcWord w ∧ w.length = 5)
    (hg : lcWord guess) (hg5 : guess.length = 5) (hck5 : check.length = 5)
    (ha : wf_array arr) (hn : num5 arr)
    (hvirgin : ∀ i < 26, letterChar i ∈ guess →
      ∀ j < 7, cellB arr i j = Cell.cNum 0)
    (hA : generate_array guess check arr = .ok A) :
    candidates dict A ⊆ candidates dict arr := by
  intro w hwmem
  rw [candidates_mem] at hwmem
  obtain ⟨hwdict, hcheck⟩ := hwmem
  obtain ⟨hw, hw5⟩ := hdict w hwdict
  have hwfA := generate_array_wf hg hg5 hck5 ha hA
  have hnA := generate_array_num5 hg hg5 hck5 ha hn hA
  rw [valid_guess_eq hw (by omega) hwfA hnA] at hcheck
  have hvB : validB w A = true := by injection hcheck
  rw [candidates_mem]
  refine ⟨hwdict, ?_⟩
  rw [valid_guess_eq hw (by omega) ha hn]
  rw [validB_mono hg hg5 hck5 hw hw5 ha hvirgin hA hvB]

/-- Witness for the amended claim C4 at a concrete input. -/
theorem C4_witness :
    wf_array init_array ∧ num5 init_array ∧
    candidates ["ccade".toList]
        (pyForce [] (generate_array "aabbb".toList "yybbb".toList
          init_array)) ⊆
      candidates ["ccade".toList] init_array :=
  ⟨by decide, by decide,
    @C4_fresh_letters_monotone ["ccade".toList] "aabbb".toList
      "yybbb".toList init_array
      (pyForce [] (generate_array "aabbb".toList "yybbb".toList init_array))
      (by decide) (by decide) (by decide)
      (by decide) (by decide) (by decide) (by decide) (by decide)⟩

/-- Claim C5, counterexample: the feedback computed for guess `"speed"`
against answer `"erase"` is not the claimed `"bbybb"`. -/
theorem C5_counterexample :
    compute_wordle_information "speed".toList "erase".toList ≠
      .ok "bbybb".toList := by decide

/-- Claim C5, amended: for guess `"speed"` against answer `"erase"` the
program returns `"ybyyb"`: the `s` is yellow (an `s` occurs in `"erase"`
at another position), the first `e` and second `e` are both yellow (the
answer contains two copies of `e`, none matched green), and `p` and `d`
are black. -/
theorem C5_speed_erase_value :
    compute_wordle_information "speed".toList "erase".toList =
      .ok "ybyyb".toList := by decide

/-- Claim C6, counterexample: on the empty list of possible answers the
probability distribution is the empty dictionary and the entropy is the
ordinary number `0`; no error condition of any kind is produced. -/
theorem C6_counterexample :
    compute_probability_distribution "tares".toList [] = .ok [] ∧
    compute_entropy "tares".toList [] = .ok 0 :=
  ⟨by decide, rfl⟩

/-- Claim C6, amended: for every guess, the entropy computation on an
empty word list succeeds with the empty distribution and entropy `0`
rather than surfacing a distinct error condition. -/
theorem C6_empty_list_value (guess : List Char) :
    compute_probability_distribution guess [] = .ok [] ∧
    compute_entropy guess [] = .ok 0 :=
  ⟨rfl, rfl⟩

theorem iclf1_no_index {w : List Char} {arr : List (List Cell)}
    (hw : lcWord w) (h7 : w.length ≤ 7) (ha : wf_array arr) :
    ∀ n s, s + n = w.length →
      iclf_loop1 w arr (List.range' s n) ≠ .error .index := by
  intro n
  induction n with
  | zero =>
    intro s _ h
    have hnil : iclf_loop1 w arr (List.range' s 0) = .ok true := rfl
    rw [hnil] at h
    exact Except.noConfusion h
  | succ m ih =>
    intro s hs
    have hsw : s < w.length := by omega
    have hc : lcChar (wAt w s) := hw _ (wAt_mem hsw)
    have hidx : letterIdx (wAt w s) < 26 := lcChar_letterIdx_lt hc
    have hidxa : letterIdx (wAt w s) < arr.length := by
      have := ha.1; omega
    have hrow : (arr.getD (letterIdx (wAt w s)) []).length = 7 :=
      wf_row_len ha hidx
    rw [List.range'_succ]
    have hwAt : w.getD s ' ' = wAt w s := rfl
    have hc5 : (arr.getD (letterIdx (wAt w s)) []).getD 5 (Cell.cNum 0) =
        cellB arr (letterIdx (wAt w s)) 5 := rfl
    have hc6 : (arr.getD (letterIdx (wAt w s)) []).getD 6 (Cell.cNum 0) =
        cellB arr (letterIdx (wAt w s)) 6 := rfl
    simp only [iclf_loop1, pyGet_ofNat_ok hsw ' ', pym_bind_ok, hwAt,
      lcChar_index hc, pyGet_ofNat_ok hidxa [], pyGet_neg2 hrow (Cell.cNum 0),
      pyGet_neg1 hrow (Cell.cNum 0), hc5, hc6]
    by_cases he : cellTruthy (cellB arr (letterIdx (wAt w s)) 6)
    · rw [if_pos he]
      by_cases hne : cellNeInt (cellB arr (letterIdx (wAt w s)) 5)
          ((w.count (wAt w s) : Int))
      · rw [if_pos hne]
        exact fun h => Except.noConfusion h
      · rw [if_neg hne]
        exact ih (s + 1) (by omega)
    · rw [if_neg he]
      cases hcell : cellB arr (letterIdx (wAt w s)) 5 with
      | cChar c =>
        rw [cellInt, pym_bind_err]
        intro h
        injection h with h
        exact PyErr.noConfusion h
      | cNum v =>
        rw [cellInt, pym_bind_ok]
        by_cases hgt : v > ((w.count (wAt w s) : Int))
        · rw [if_pos hgt]
          exact fun h => Except.noConfusion h
        · rw [if_neg hgt]
          exact ih (s + 1) (by omega)
      | cBool b =>
        rw [cellInt, pym_bind_ok]
        by_cases hgt : (if b then (1 : Int) else 0) >
            ((w.count (wAt w s) : Int))
        · rw [if_pos hgt]
          exact fun h => Except.noConfusion h
        · rw [if_neg hgt]
          exact ih (s + 1) (by omega)

theorem iclf2_no_index {w : List Char} {arr : List (List Cell)}
    (ha : wf_array arr) :
    ∀ n s, s + n = 26 →
      iclf_loop2 w arr (List.range' s n) ≠ .error .index := by
  intro n
  induction n with
  | zero =>
    intro s _ h
    have hnil : iclf_loop2 w arr (List.range' s 0) = .ok true := rfl
    rw [hnil] at h
    exact Except.noConfusion h
  | succ m ih =>
    intro s hs
    have hsa : s < arr.length := by have := ha.1; omega
    have hrow : (arr.getD s []).length = 7 := wf_row_len ha (by omega)
    rw [List.range'_succ]
    have hc5 : (arr.getD s []).getD 5 (Cell.cNum 0) = cellB arr s 5 := rfl
    simp only [iclf_loop2, pyGet_ofNat_ok hsa [], pym_bind_ok,
      pyGet_neg2 hrow (Cell.cNum 0), hc5]
    cases hcell : cellB arr s 5 with
    | cChar c =>
      rw [cellInt, pym_bind_err]
      intro h
      injection h with h
      exact PyErr.noConfusion h
    | cNum v =>
      rw [cellInt, pym_bind_ok]
      by_cases h1 : v ≥ 1
      · rw [if_pos h1]
        by_cases h2 : Char.ofNat (s + 'a'.toNat) ∉ w
        · rw [if_pos h2]
          exact fun h => Except.noConfusion h
        · rw [if_neg h2]
          exact ih (s + 1) (by omega)
      · rw [if_neg h1]
        exact ih (s + 1) (by omega)
    | cBool b =>
      rw [cellInt, pym_bind_ok]
      by_cases h1 : (if b then (1 : Int) else 0) ≥ 1
      · rw [if_pos h1]
        by_cases h2 : Char.ofNat (s + 'a'.toNat) ∉ w
        · rw [if_pos h2]
          exact fun h => Except.noConfusion h
        · rw [if_neg h2]
          exact ih (s + 1) (by omega)
      · rw [if_neg h1]
        exact ih (s + 1) (by omega)

/-- Claim C10: under the stated preconditions (5-letter lowercase words
and a 26 x 7 array; the colour sequence passed to `generate_array` also
has length 5), every position and letter index stays in bounds: the
position checks fully succeed, the frequency check and `valid_guess`
never raise an out-of-range indexing error (an ill-typed stored count can
still raise a `TypeError`, which is not an indexing fault), and
`generate_array` fully succeeds. -/
theorem C10_no_index_error {word guess check : List Char}
    {arr : List (List Cell)} (hword : lcWord word) (hw5 : word.length = 5)
    (hg : lcWord guess) (hg5 : guess.length = 5) (hck5 : check.length = 5)
    (ha : wf_array arr) :
    (∃ b, is_incorrect_position word arr = .ok b) ∧
    (∃ b, is_correct_position word arr = .ok b) ∧
    is_correct_letter_frequencies word arr ≠ .error .index ∧
    valid_guess word arr ≠ .error .index ∧
    (∃ A, generate_array guess check arr = .ok A) := by
  have h7 : word.length ≤ 7 := by omega
  have h1 := is_incorrect_position_eq hword h7 ha
  have h2 := is_correct_position_eq hword h7 ha
  have h3 : is_correct_letter_frequencies word arr ≠ .error .index := by
    rw [is_correct_letter_frequencies, List.range_eq_range']
    cases hr : iclf_loop1 word arr (List.range' 0 word.length) with
    | ok b =>
      rw [pym_bind_ok]
      cases b
      · rw [if_neg (by simp)]
        exact fun h => Except.noConfusion h
      · rw [if_pos rfl]
        have := @iclf2_no_index word _ ha 26 0 (by omega)
        rw [ha.1, List.range_eq_range']
        exact this
    | error e =>
      rw [pym_bind_err]
      intro h
      injection h with h
      rw [h] at hr
      exact iclf1_no_index hword h7 ha word.length 0 (by omega) hr
  refine ⟨⟨_, h1⟩, ⟨_, h2⟩, h3, ?_, ?_⟩
  · rw [valid_guess, h1, pym_bind_ok]
    cases hb : posOK1 word arr
    · rw [if_neg (by simp)]
      exact fun h => Except.noConfusion h
    · rw [if_pos rfl, h2, pym_bind_ok]
      cases hb2 : posOK2 word arr
      · rw [if_neg (by simp)]
        exact fun h => Except.noConfusion h
      · rw [if_pos rfl]
        exact h3
  · obtain ⟨A, hA, _⟩ := generate_array_eq hg hg5 hck5 ha
    exact ⟨A, hA⟩

/-- Witness for claim C10 at a concrete input. -/
theorem C10_witness :
    lcWord "crane".toList ∧ wf_array init_array ∧
    ((∃ b, is_incorrect_position "crane".toList init_array = .ok b) ∧
     (∃ b, is_correct_position "crane".toList init_array = .ok b) ∧
     is_correct_letter_frequencies "crane".toList init_array ≠
       .error .index ∧
     valid_guess "crane".toList init_array ≠ .error .index ∧
     (∃ A, generate_array "slate".toList "bbbgg".toList init_array =
       .ok A)) :=
  ⟨by decide, by decide,
    C10_no_index_error (by decide) (by decide) (by decide) (by decide)
      (by decide) (by decide)⟩

theorem list_countP_congr {α : Type} {l : List α} {p q : α → Bool}
    (h : ∀ x ∈ l, p x = q x) : l.countP p = l.countP q := by
  induction l with
  | nil => rfl
  | cons a l ih =>
    rw [List.countP_cons, List.countP_cons, h a (List.mem_cons_self a l),
      ih fun x hx => h x (List.mem_cons_of_mem a hx)]

theorem list_countP_split {α : Type} (l : List α) (p q : α → Bool) :
    l.countP p = l.countP (fun a => p a && q a) +
      l.countP (fun a => p a && !q a) := by
  induction l with
  | nil => rfl
  | cons a l ih =>
    rw [List.countP_cons, List.countP_cons, List.countP_cons, ih]
    by_cases hp : p a <;> by_cases hq : q a <;> simp [hp, hq] <;> omega

theorem take_countP_positional {α : Type} (l : List α) (pr : α → Bool)
    (d : α) : ∀ p, p ≤ l.length →
      (l.take p).countP pr = (List.range p).countP fun k => pr (l.getD k d) := by
  induction l with
  | nil =>
    intro p hp
    have : p = 0 := by simpa using hp
    subst this
    rfl
  | cons a t ih =>
    intro p hp
    cases p with
    | zero => rfl
    | succ m =>
      rw [List.take_succ_cons, List.countP_cons, List.range_succ_eq_map,
        List.countP_cons, List.countP_map]
      have hm : m ≤ t.length := by simpa using hp
      rw [ih m hm]
      simp only [List.getD_cons_zero, List.getD_cons_succ]
      refine congrArg₂ _ (list_countP_congr fun k _ => ?_) rfl
      simp [Function.comp]

theorem count_eq_occUpto {w : List Char} {p : Nat} (hp : p ≤ w.length)
    (L : Char) : (w.take p).count L = occUpto w p L := by
  rw [List.count_eq_countP, occUpto,
    take_countP_positional w (· == L) ' ' p hp]
  refine list_countP_congr fun k _ => ?_
  exact Bool.beq_eq_decide_eq (w.getD k ' ') L

theorem count_eq_occUpto_full {w : List Char} (L : Char) :
    w.count L = occUpto w w.length L := by
  rw [← List.take_length w]
  rw [count_eq_occUpto (by simp) L]
  simp

theorem occUpto_split (guess answer : List Char) (p : Nat) (L : Char) :
    occUpto guess p L = greensUpto guess answer p L +
      nongreenUpto guess answer p L := by
  rw [occUpto, greensUpto, nongreenUpto,
    list_countP_split (List.range p) (fun k => decide (wAt guess k = L))
      (fun k => decide (wAt guess k = wAt answer k))]
  congr 1
  · refine list_countP_congr fun k _ => ?_
    by_cases h1 : wAt guess k = L <;>
      by_cases h2 : wAt guess k = wAt answer k <;> simp [h1, h2]
  · refine list_countP_congr fun k _ => ?_
    by_cases h1 : wAt guess k = L <;>
      by_cases h2 : wAt guess k = wAt answer k <;> simp [h1, h2]

theorem greensUpto_mono (guess answer : List Char) {p q : Nat} (h : p ≤ q)
    (L : Char) : greensUpto guess answer p L ≤ greensUpto guess answer q L :=
  List.Sublist.countP_le _ (List.range_sublist.mpr h)

theorem greens_le_count {guess answer : List Char}
    (hlen : guess.length = answer.length) (L : Char) :
    greensUpto guess answer guess.length L ≤ answer.count L := by
  rw [count_eq_occUpto_full, greensUpto, occUpto, hlen]
  refine List.countP_mono_left fun k hk => ?_
  simp only [decide_eq_true_eq, and_imp]
  intro h1 h2
  rw [← h1, h2]

theorem cwi_loop1_eq {guess answer : List Char} (hg : lcWord guess)
    (ha : lcWord answer) (hlen : guess.length = answer.length) :
    ∀ n s (freq green : List Int), s + n = answer.length →
      freq.length = 26 → green.length = 26 →
      ∃ F G, cwi_loop1 guess answer (List.range' s n) freq green =
          .ok (F, G) ∧ F.length = 26 ∧ G.length = 26 ∧
        ∀ i < 26,
          F.getD i 0 = freq.getD i 0 +
            ((List.range' s n).countP fun k =>
              decide (wAt answer k = letterChar i)) ∧
          G.getD i 0 = green.getD i 0 +
            ((List.range' s n).countP fun k =>
              decide (wAt guess k = wAt answer k ∧
                wAt guess k = letterChar i)) := by
  intro n
  induction n with
  | zero =>
    intro s freq green _ hf hgr
    exact ⟨freq, green, rfl, hf, hgr, fun i _ => by simp⟩
  | succ m ih =>
    intro s freq green hs hf hgr
    have hsa : s < answer.length := by omega
    have hsg : s < guess.length := by omega
    have hca : lcChar (wAt answer s) := ha _ (wAt_mem hsa)
    have hidx : letterIdx (wAt answer s) < 26 := lcChar_letterIdx_lt hca
    have hidxf : letterIdx (wAt answer s) < freq.length := by omega
    have hidxg : letterIdx (wAt answer s) < green.length := by omega
    rw [List.range'_succ]
    have hwa : answer.getD s ' ' = wAt answer s := rfl
    have hwg : guess.getD s ' ' = wAt guess s := rfl
    simp only [cwi_loop1, pyGet_ofNat_ok hsa ' ', pym_bind_ok, hwa,
      lcChar_index hca, pyGet_ofNat_ok hidxf (0 : Int),
      pySet_ofNat_ok hidxf, pyGet_ofNat_ok hsg ' ', hwg]
    have hlc : letterChar (letterIdx (wAt answer s)) = wAt answer s :=
      lcChar_letterChar hca
    by_cases hgreen : wAt guess s = wAt answer s
    · rw [if_pos hgreen]
      simp only [pyGet_ofNat_ok hidxg (0 : Int), pySet_ofNat_ok hidxg,
        pym_bind_ok]
      obtain ⟨F, G, hFG, hFl, hGl, hvals⟩ := ih (s + 1)
        (freq.set (letterIdx (wAt answer s))
          (freq.getD (letterIdx (wAt answer s)) 0 + 1))
        (green.set (letterIdx (wAt answer s))
          (green.getD (letterIdx (wAt answer s)) 0 + 1))
        (by omega) (by simpa using hf) (by simpa using hgr)
      refine ⟨F, G, hFG, hFl, hGl, fun i hi => ?_⟩
      obtain ⟨hv1, hv2⟩ := hvals i hi
      rw [List.countP_cons, List.countP_cons]
      by_cases hieq : i = letterIdx (wAt answer s)
      · rw [hieq] at hv1 hv2 ⊢
        rw [hv1, hv2, getD_set_self hidxf, getD_set_self hidxg]
        have hd1 : decide (wAt answer s =
            letterChar (letterIdx (wAt answer s))) = true := by
          simp [hlc]
        have hd2 : decide (wAt guess s = wAt answer s ∧
            wAt guess s = letterChar (letterIdx (wAt answer s))) = true := by
          simp [hlc, hgreen]
        rw [hd1, hd2]
        constructor <;> (rw [if_pos rfl]; push_cast; omega)
      · rw [hv1, hv2, getD_set_ne (fun hh => hieq hh.symm),
          getD_set_ne (fun hh => hieq hh.symm)]
        have hd1 : decide (wAt answer s = letterChar i) = false := by
          simp only [decide_eq_false_iff_not]
          intro hh
          apply hieq
          rw [← letterIdx_letterChar i hi, ← hh]
        have hd2 : decide (wAt guess s = wAt answer s ∧
            wAt guess s = letterChar i) = false := by
          simp only [decide_eq_false_iff_not, not_and]
          intro hh1 hh2
          apply hieq
          rw [← letterIdx_letterChar i hi, ← hh2, hh1]
        rw [hd1, hd2]
        simp
    · rw [if_neg hgreen]
      obtain ⟨F, G, hFG, hFl, hGl, hvals⟩ := ih (s + 1)
        (freq.set (letterIdx (wAt answer s))
          (freq.getD (letterIdx (wAt answer s)) 0 + 1)) green
        (by omega) (by simpa using hf) hgr
      refine ⟨F, G, hFG, hFl, hGl, fun i hi => ?_⟩
      obtain ⟨hv1, hv2⟩ := hvals i hi
      rw [List.countP_cons, List.countP_cons]
      by_cases hieq : i = letterIdx (wAt answer s)
      · have hd2' : decide (wAt guess s = wAt answer s ∧
            wAt guess s = letterChar (letterIdx (wAt answer s))) = false := by
          simp [hgreen]
        rw [hieq] at hv1 hv2 ⊢
        rw [hv1, hv2, getD_set_self hidxf]
        have hd1 : decide (wAt answer s =
            letterChar (letterIdx (wAt answer s))) = true := by
          simp [hlc]
        rw [hd1, hd2']
        constructor
        · rw [if_pos rfl]; push_cast; omega
        · simp
      · have hd2 : decide (wAt guess s = wAt answer s ∧
            wAt guess s = letterChar i) = false := by
          simp [hgreen]
        rw [hv1, hv2, getD_set_ne (fun hh => hieq hh.symm)]
        have hd1 : decide (wAt answer s = letterChar i) = false := by
          simp only [decide_eq_false_iff_not]
          intro hh
          apply hieq
          rw [← letterIdx_letterChar i hi, ← hh]
        rw [hd1, hd2]
        simp

theorem pym_pure {α : Type} (a : α) : (pure a : PyM α) = .ok a := rfl

theorem greensUpto_succ (guess answer : List Char) (s : Nat) (L : Char) :
    greensUpto guess answer (s + 1) L = greensUpto guess answer s L +
      (if wAt guess s = wAt answer s ∧ wAt guess s = L then 1 else 0) := by
  rw [greensUpto, greensUpto, List.range_succ, List.countP_append]
  congr 1
  rw [List.countP_cons, List.countP_nil]
  by_cases h : wAt guess s = wAt answer s ∧ wAt guess s = L <;> simp [h]

theorem nongreenUpto_succ (guess answer : List Char) (s : Nat) (L : Char) :
    nongreenUpto guess answer (s + 1) L = nongreenUpto guess answer s L +
      (if wAt guess s = L ∧ wAt guess s ≠ wAt answer s then 1 else 0) := by
  rw [nongreenUpto, nongreenUpto, List.range_succ, List.countP_append]
  congr 1
  rw [List.countP_cons, List.countP_nil]
  by_cases h : wAt guess s = L ∧ wAt guess s ≠ wAt answer s <;> simp [h]

theorem cwi_loop2_eq {guess answer : List Char} (hg : lcWord guess)
    (ha : lcWord answer) (hlen : guess.length = answer.length)
    {freq : List Int} (hfl : freq.length = 26)
    (hfv : ∀ i < 26, freq.getD i 0 = (answer.count (letterChar i) : Int)) :
    ∀ n s (seq : List Char) (green : List Int), s + n = guess.length →
      green.length = 26 →
      (∀ i < 26, green.getD i 0 =
        (greensUpto guess answer guess.length (letterChar i) : Int) -
        (greensUpto guess answer s (letterChar i) : Int)) →
      ∃ G, cwi_loop2 guess answer freq (List.range' s n) seq green =
        .ok (seq ++ (List.range' s n).map (tile guess answer), G) := by
  intro n
  induction n with
  | zero =>
    intro s seq green _ _ _
    exact ⟨green, by simp [cwi_loop2]⟩
  | succ m ih =>
    intro s seq green hs hgl hginv
    have hsg : s < guess.length := by omega
    have hsa : s < answer.length := by omega
    have hcL : lcChar (wAt guess s) := hg _ (wAt_mem hsg)
    have hi0 : letterIdx (wAt guess s) < 26 := lcChar_letterIdx_lt hcL
    have hi0g : letterIdx (wAt guess s) < green.length := by omega
    have hi0f : letterIdx (wAt guess s) < freq.length := by omega
    have hlcL : letterChar (letterIdx (wAt guess s)) = wAt guess s :=
      lcChar_letterChar hcL
    rw [List.range'_succ]
    have hwg : guess.getD s ' ' = wAt guess s := rfl
    have hwa : answer.getD s ' ' = wAt answer s := rfl
    simp only [cwi_loop2, pyGet_ofNat_ok hsg ' ', pym_bind_ok, hwg,
      pyGet_ofNat_ok hsa ' ', hwa]
    by_cases hgreen : wAt guess s = wAt answer s
    · -- green position
      rw [if_pos hgreen]
      simp only [pyGet_ofNat_ok hi0g (0 : Int), pySet_ofNat_ok hi0g,
        pym_bind_ok, lcChar_index hcL]
      have hinv' : ∀ i < 26,
          (green.set (letterIdx (wAt guess s))
            (green.getD (letterIdx (wAt guess s)) 0 - 1)).getD i 0 =
          (greensUpto guess answer guess.length (letterChar i) : Int) -
          (greensUpto guess answer (s + 1) (letterChar i) : Int) := by
        intro i hi
        by_cases hieq : i = letterIdx (wAt guess s)
        · rw [hieq, getD_set_self hi0g, hginv _ hi0]
          rw [greensUpto_succ, if_pos ⟨hgreen, hlcL.symm ▸ rfl⟩]
          push_cast
          ring
        · rw [getD_set_ne (fun hh => hieq hh.symm), hginv _ hi]
          rw [greensUpto_succ, if_neg ?hne]
          case hne =>
            intro ⟨_, hh2⟩
            apply hieq
            rw [← letterIdx_letterChar i hi, ← hh2]
          rfl
      obtain ⟨G, hG⟩ := ih (s + 1) (seq ++ ['g'])
        (green.set (letterIdx (wAt guess s))
          (green.getD (letterIdx (wAt guess s)) 0 - 1))
        (by omega) (by simpa using hgl) hinv'
      refine ⟨G, ?_⟩
      rw [hG, List.map_cons]
      have htile : tile guess answer s = 'g' := by
        rw [tile, if_pos hgreen]
      rw [htile]
      simp
    · -- non-green position
      rw [if_neg hgreen]
      have hcnt : (guess.take (s + 1)).count (wAt guess s) =
          greensUpto guess answer (s + 1) (wAt guess s) +
          nongreenUpto guess answer (s + 1) (wAt guess s) := by
        rw [count_eq_occUpto (by omega), occUpto_split]
      have hgs : greensUpto guess answer (s + 1) (wAt guess s) =
          greensUpto guess answer s (wAt guess s) := by
        rw [greensUpto_succ, if_neg (fun hh => hgreen hh.1)]
        omega
      have hng : nongreenUpto guess answer (s + 1) (wAt guess s) =
          nongreenUpto guess answer s (wAt guess s) + 1 := by
        rw [nongreenUpto_succ, if_pos ⟨rfl, hgreen⟩]
      have htot_le : greensUpto guess answer guess.length (wAt guess s) ≤
          answer.count (wAt guess s) := greens_le_count hlen _
      have hgs_le : greensUpto guess answer s (wAt guess s) ≤
          greensUpto guess answer guess.length (wAt guess s) :=
        greensUpto_mono guess answer (by omega) _
      have hfiv : freq.getD (letterIdx (wAt guess s)) 0 =
          (answer.count (wAt guess s) : Int) := by
        rw [hfv _ hi0, hlcL]
      have hgiv : green.getD (letterIdx (wAt guess s)) 0 =
          (greensUpto guess answer guess.length (wAt guess s) : Int) -
          (greensUpto guess answer s (wAt guess s) : Int) := by
        rw [hginv _ hi0, hlcL]
      have hinv2 : ∀ i < 26, green.getD i 0 =
          (greensUpto guess answer guess.length (letterChar i) : Int) -
          (greensUpto guess answer (s + 1) (letterChar i) : Int) := by
        intro i hi
        rw [hginv _ hi]
        have hstep : greensUpto guess answer (s + 1) (letterChar i) =
            greensUpto guess answer s (letterChar i) := by
          rw [greensUpto_succ, if_neg (fun hh => hgreen hh.1)]
          omega
        rw [hstep]
      have hgoal : ∀ v : Char, v = tile guess answer s →
          ∃ G, cwi_loop2 guess answer freq (List.range' (s + 1) m)
            (seq ++ [v]) green =
            .ok (seq ++ List.map (tile guess answer)
              (s :: List.range' (s + 1) m), G) := by
        intro v hv
        obtain ⟨G, hG⟩ := ih (s + 1) (seq ++ [v]) green (by omega) hgl hinv2
        refine ⟨G, ?_⟩
        rw [hG, List.map_cons, hv]
        simp
      have htile : tile guess answer s =
          if nongreenUpto guess answer (s + 1) (wAt guess s) ≤
            answer.count (wAt guess s) -
            greensUpto guess answer guess.length (wAt guess s)
          then 'y' else 'b' := by
        rw [tile, if_neg hgreen]
      simp only [lcChar_index hcL, pyGet_ofNat_ok hi0f (0 : Int),
        pyGet_ofNat_ok hi0g (0 : Int), pym_bind_ok, pym_pure]
      by_cases hmem : wAt guess s ∈ answer
      · rw [if_pos hmem]
        by_cases hle : ((guess.take (s + 1)).count (wAt guess s) : Int) ≤
            freq.getD (letterIdx (wAt guess s)) 0
        · rw [if_pos hle]
          by_cases hge : freq.getD (letterIdx (wAt guess s)) 0 -
              ((guess.take (s + 1)).count (wAt guess s) : Int) ≥
              green.getD (letterIdx (wAt guess s)) 0
          · rw [if_pos hge]
            refine hgoal 'y' ?_
            rw [htile, if_pos ?_]
            rw [hfiv, hgiv, hcnt] at hge
            push_cast at hge
            omega
          · rw [if_neg hge]
            refine hgoal 'b' ?_
            rw [htile, if_neg ?_]
            intro hclaim
            apply hge
            rw [hfiv, hgiv, hcnt]
            push_cast
            omega
        · rw [if_neg hle]
          refine hgoal 'b' ?_
          rw [htile, if_neg ?_]
          intro hclaim
          apply hle
          rw [hfiv, hcnt]
          push_cast
          omega
      · rw [if_neg hmem]
        refine hgoal 'b' ?_
        rw [htile, if_neg ?_]
        intro hclaim
        have hc0 : answer.count (wAt guess s) = 0 :=
          List.count_eq_zero.mpr hmem
        omega

/-- The feedback computation evaluates, on equal-length lowercase words,
to exactly the per-position colour rule stated by the specification. -/
theorem compute_wordle_information_eq {guess answer : List Char}
    (hg : lcWord guess) (ha : lcWord answer)
    (hlen : guess.length = answer.length) :
    compute_wordle_information guess answer = .ok (tileMap guess answer) := by
  rw [compute_wordle_information]
  have hz : ∀ i < 26, (List.replicate 26 (0 : Int)).getD i 0 = 0 := by
    intro i hi
    rw [List.getD_eq_getElem?_getD,
      List.getElem?_eq_getElem (by simpa using hi), List.getElem_replicate]
    rfl
  obtain ⟨F, G, hFG, hFl, hGl, hvals⟩ := cwi_loop1_eq hg ha hlen
    answer.length 0 (List.replicate 26 0) (List.replicate 26 0) (by omega)
    (by simp) (by simp)
  rw [List.range_eq_range', hFG, pym_bind_ok]
  have hF : ∀ i < 26, F.getD i 0 = (answer.count (letterChar i) : Int) := by
    intro i hi
    rw [(hvals i hi).1, hz i hi, count_eq_occUpto_full, occUpto,
      List.range_eq_range']
    simp
  have hG : ∀ i < 26, G.getD i 0 =
      (greensUpto guess answer guess.length (letterChar i) : Int) -
      (greensUpto guess answer 0 (letterChar i) : Int) := by
    intro i hi
    rw [(hvals i hi).2, hz i hi]
    have h0 : greensUpto guess answer 0 (letterChar i) = 0 := rfl
    rw [h0, greensUpto, hlen, List.range_eq_range']
    push_cast
    ring
  obtain ⟨G', hG'⟩ := cwi_loop2_eq hg ha hlen hFl hF guess.length 0 [] G
    (by omega) hGl hG
  rw [List.range_eq_range', hG', pym_bind_ok]
  rw [tileMap, List.range_eq_range']
  simp

/-- Claim C2: the per-position reading of the feedback rule.  On
equal-length lowercase words the computation succeeds; position `j` is
green exactly when the guess matches the answer there; a non-green
position is yellow exactly when the number of non-green occurrences of
its letter up to and including `j` does not exceed the total count of
that letter in the answer minus the total number of green positions of
that letter; and black otherwise (covering the excess copies of a
repeated letter). -/
theorem C2_feedback_rule {guess answer : List Char} (hg : lcWord guess)
    (ha : lcWord answer) (hlen : guess.length = answer.length) :
    ∃ s, compute_wordle_information guess answer = .ok s ∧
      s.length = guess.length ∧
      ∀ j < guess.length,
        (wAt s j = 'g' ↔ wAt guess j = wAt answer j) ∧
        (wAt s j = 'y' ↔ wAt guess j ≠ wAt answer j ∧
          nongreenUpto guess answer (j + 1) (wAt guess j) ≤
            answer.count (wAt guess j) -
            greensUpto guess answer guess.length (wAt guess j)) ∧
        (wAt s j = 'b' ↔ wAt guess j ≠ wAt answer j ∧
          ¬ (nongreenUpto guess answer (j + 1) (wAt guess j) ≤
            answer.count (wAt guess j) -
            greensUpto guess answer guess.length (wAt guess j))) := by
  refine ⟨tileMap guess answer, compute_wordle_information_eq hg ha hlen,
    by simp [tileMap], fun j hj => ?_⟩
  have hjt : wAt (tileMap guess answer) j = tile guess answer j := by
    rw [tileMap, wAt, List.getD_eq_getElem?_getD,
      List.getElem?_eq_getElem (by simpa using hj)]
    simp
  rw [hjt, tile]
  by_cases h1 : wAt guess j = wAt answer j
  · rw [if_pos h1]
    refine ⟨by simp [h1], ?_, ?_⟩ <;> simp [h1]
  · rw [if_neg h1]
    by_cases h2 : nongreenUpto guess answer (j + 1) (wAt guess j) ≤
        answer.count (wAt guess j) -
        greensUpto guess answer guess.length (wAt guess j)
    · rw [if_pos h2]
      refine ⟨by simp [h1], by simp [h1, h2], by simp [h2]⟩
    · rw [if_neg h2]
      refine ⟨by simp [h1], by simp [h2], by simp [h1, h2]⟩

/-- Witness for claim C2 at a concrete input. -/
theorem C2_witness :
    lcWord "speed".toList ∧ lcWord "erase".toList ∧
    (∃ s, compute_wordle_information "speed".toList "erase".toList =
        .ok s ∧
      s.length = "speed".toList.length ∧
      ∀ j < "speed".toList.length,
        (wAt s j = 'g' ↔ wAt "speed".toList j = wAt "erase".toList j) ∧
        (wAt s j = 'y' ↔ wAt "speed".toList j ≠ wAt "erase".toList j ∧
          nongreenUpto "speed".toList "erase".toList (j + 1)
              (wAt "speed".toList j) ≤
            "erase".toList.count (wAt "speed".toList j) -
            greensUpto "speed".toList "erase".toList
              "speed".toList.length (wAt "speed".toList j)) ∧
        (wAt s j = 'b' ↔ wAt "speed".toList j ≠ wAt "erase".toList j ∧
          ¬ (nongreenUpto "speed".toList "erase".toList (j + 1)
              (wAt "speed".toList j) ≤
            "erase".toList.count (wAt "speed".toList j) -
            greensUpto "speed".toList "erase".toList
              "speed".toList.length (wAt "speed".toList j)))) :=
  ⟨by decide, by decide,
    C2_feedback_rule (by decide) (by decide) (by decide)⟩

theorem gyCount_min {guess answer : List Char} (L : Char) :
    ∀ p, p ≤ guess.length →
    (((List.range p).countP fun i =>
        decide ((tile guess answer i = 'g' ∨ tile guess answer i = 'y') ∧
          wAt guess i = L)) =
      greensUpto guess answer p L +
        min (nongreenUpto guess answer p L)
          (answer.count L - greensUpto guess answer guess.length L)) ∧
    (((List.range p).any fun i =>
        decide (tile guess answer i = 'b' ∧ wAt guess i = L)) =
      decide (nongreenUpto guess answer p L >
        answer.count L - greensUpto guess answer guess.length L)) := by
  intro p
  induction p with
  | zero =>
    intro _
    constructor
    · simp [greensUpto, nongreenUpto]
    · have h0 : nongreenUpto guess answer 0 L = 0 := rfl
      rw [h0]
      simp
  | succ q ih =>
    intro hp
    have hq : q ≤ guess.length := by omega
    obtain ⟨ih1, ih2⟩ := ih hq
    rw [List.range_succ, List.countP_append, List.any_append, ih1, ih2]
    by_cases hL : wAt guess q = L
    · by_cases hgr : wAt guess q = wAt answer q
      · -- green position with letter L
        have htv : tile guess answer q = 'g' := by rw [tile, if_pos hgr]
        have hgstep : greensUpto guess answer (q + 1) L =
            greensUpto guess answer q L + 1 := by
          rw [greensUpto_succ, if_pos ⟨hgr, hL⟩]
        have hnstep : nongreenUpto guess answer (q + 1) L =
            nongreenUpto guess answer q L := by
          rw [nongreenUpto_succ, if_neg (fun hh => hh.2 hgr)]
          omega
        have hcp : (List.countP (fun i =>
            decide ((tile guess answer i = 'g' ∨ tile guess answer i = 'y') ∧
              wAt guess i = L)) [q]) = 1 := by
          simp [htv, hL]
        have hap : ([q].any fun i =>
            decide (tile guess answer i = 'b' ∧ wAt guess i = L)) = false := by
          simp [htv]
        rw [hcp, hap, hgstep, hnstep]
        constructor
        · omega
        · simp
      · -- non-green position with letter L
        have hgstep : greensUpto guess answer (q + 1) L =
            greensUpto guess answer q L := by
          rw [greensUpto_succ, if_neg (fun hh => hgr hh.1)]
          omega
        have hnstep : nongreenUpto guess answer (q + 1) L =
            nongreenUpto guess answer q L + 1 := by
          rw [nongreenUpto_succ, if_pos ⟨hL, hgr⟩]
        have htile : tile guess answer q =
            if nongreenUpto guess answer (q + 1) L ≤
              answer.count L - greensUpto guess answer guess.length L
            then 'y' else 'b' := by
          rw [tile, if_neg hgr, hL]
        by_cases hcond : nongreenUpto guess answer (q + 1) L ≤
            answer.count L - greensUpto guess answer guess.length L
        · have htv : tile guess answer q = 'y' := by
            rw [htile, if_pos hcond]
          have hcp : (List.countP (fun i =>
              decide ((tile guess answer i = 'g' ∨
                tile guess answer i = 'y') ∧ wAt guess i = L)) [q]) = 1 := by
            simp [htv, hL]
          have hap : ([q].any fun i =>
              decide (tile guess answer i = 'b' ∧ wAt guess i = L)) =
              false := by
            simp [htv]
          rw [hcp, hap, hgstep, hnstep]
          rw [hnstep] at hcond
          constructor
          · omega
          · simp only [Bool.or_false]
            rw [decide_eq_decide]
            omega
        · have htv : tile guess answer q = 'b' := by
            rw [htile, if_neg hcond]
          have hcp : (List.countP (fun i =>
              decide ((tile guess answer i = 'g' ∨
                tile guess answer i = 'y') ∧ wAt guess i = L)) [q]) = 0 := by
            simp [htv]
          have hap : ([q].any fun i =>
              decide (tile guess answer i = 'b' ∧ wAt guess i = L)) =
              true := by
            simp [htv, hL]
          rw [hcp, hap, hgstep, hnstep]
          rw [hnstep] at hcond
          constructor
          · omega
          · rw [Bool.or_true, decide_eq_true (show nongreenUpto guess answer
              q L + 1 > answer.count L -
              greensUpto guess answer guess.length L by omega)]
    · -- position with a different letter
      have hgstep : greensUpto guess answer (q + 1) L =
          greensUpto guess answer q L := by
        rw [greensUpto_succ, if_neg (fun hh => hL hh.2)]
        omega
      have hnstep : nongreenUpto guess answer (q + 1) L =
          nongreenUpto guess answer q L := by
        rw [nongreenUpto_succ, if_neg (fun hh => hL hh.1)]
        omega
      have hcp : (List.countP (fun i =>
          decide ((tile guess answer i = 'g' ∨ tile guess answer i = 'y') ∧
            wAt guess i = L)) [q]) = 0 := by
        simp [hL]
      have hap : ([q].any fun i =>
          decide (tile guess answer i = 'b' ∧ wAt guess i = L)) = false := by
        simp [hL]
      rw [hcp, hap, hgstep, hnstep]
      constructor
      · omega
      · simp

theorem tileMap_length (guess answer : List Char) :
    (tileMap guess answer).length = guess.length := by
  simp [tileMap]

theorem wAt_tileMap {guess answer : List Char} {i : Nat}
    (h : i < guess.length) :
    wAt (tileMap guess answer) i = tile guess answer i := by
  rw [tileMap, wAt, List.getD_eq_getElem?_getD,
    List.getElem?_eq_getElem (by simpa using h)]
  simp

/-- Value of `compute_letter_freq` on the true feedback of a guess:
the stored count is the number of greens plus the number of yellows that
fit in the answer budget, and the flag records whether the budget was
exceeded. -/
theorem clf_true_feedback {guess answer : List Char} (L : Char) :
    clfCount L guess (tileMap guess answer) =
      greensUpto guess answer guess.length L +
      min (nongreenUpto guess answer guess.length L)
        (answer.count L - greensUpto guess answer guess.length L) ∧
    clfExact L guess (tileMap guess answer) =
      decide (nongreenUpto guess answer guess.length L >
        answer.count L - greensUpto guess answer guess.length L) := by
  obtain ⟨h1, h2⟩ := @gyCount_min guess answer L
    guess.length le_rfl
  constructor
  · rw [clfCount, ← h1]
    refine list_countP_congr fun i hi => ?_
    have hi' : i < guess.length := List.mem_range.mp hi
    rw [wAt_tileMap hi']
  · rw [clfExact, ← h2]
    refine list_any_congr fun i hi => ?_
    have hi' : i < guess.length := List.mem_range.mp hi
    rw [wAt_tileMap hi']

theorem getD_replicate_self {α : Type} (n i : Nat) (x : α) :
    (List.replicate n x).getD i x = x := by
  by_cases h : i < n
  · rw [List.getD_eq_getElem?_getD,
      List.getElem?_eq_getElem (by simpa using h), List.getElem_replicate]
    rfl
  · rw [List.getD_eq_getElem?_getD, List.getElem?_eq_none (by simpa using h)]
    rfl

theorem cellB_init (i j : Nat) : cellB init_array i j = Cell.cNum 0 := by
  rw [cellB, init_array]
  by_cases h : i < 26
  · have hrow : (List.replicate 26 (List.replicate 7 (Cell.cNum 0))).getD
        i [] = List.replicate 7 (Cell.cNum 0) := by
      rw [List.getD_eq_getElem?_getD,
        List.getElem?_eq_getElem (by simpa using h), List.getElem_replicate]
      rfl
    rw [hrow, getD_replicate_self]
  · have hrow : (List.replicate 26 (List.replicate 7 (Cell.cNum 0))).getD
        i [] = [] := by
      rw [List.getD_eq_getElem?_getD, List.getElem?_eq_none (by simpa using h)]
      rfl
    rw [hrow]
    rfl

theorem SoundArr_init (answer : List Char) : SoundArr answer init_array := by
  constructor
  · intro i _ j _
    rw [cellB_init]
    exact ⟨fun h => absurd h (by simp), fun h => absurd h (by simp)⟩
  · intro i _
    refine ⟨0, by rw [cellB_init]; rfl, Nat.zero_le _, fun h => ?_⟩
    rw [cellB_init] at h
    exact absurd h (by simp [cellTruthy])

/-- Incorporating the true feedback of any lowercase 5-letter guess
preserves soundness of the array with respect to the answer. -/
theorem SoundArr_step {guess answer : List Char} {arr A : List (List Cell)}
    (hg : lcWord guess) (hg5 : guess.length = 5) (ha : lcWord answer)
    (ha5 : answer.length = 5) (harr : wf_array arr)
    (hs : SoundArr answer arr)
    (hA : generate_array guess (tileMap guess answer) arr = .ok A) :
    SoundArr answer A := by
  have hck5 : (tileMap guess answer).length = 5 := by
    rw [tileMap_length, hg5]
  obtain ⟨A', hA', hwf, hcells, hhit, hmiss⟩ :=
    generate_array_eq hg hg5 hck5 harr
  rw [hA'] at hA
  obtain rfl : A' = A := by injection hA
  obtain ⟨hpos, hcnt⟩ := hs
  constructor
  · intro i hi j hj
    rw [hcells i j hj]
    by_cases hidx : letterIdx (wAt guess j) = i
    · rw [if_pos hidx]
      rw [wAt_tileMap (by omega)]
      have hlc : letterChar i = wAt guess j := by
        rw [← hidx, lcChar_letterChar (hg _ (wAt_mem (by omega)))]
      constructor
      · intro hcell
        have hti : tile guess answer j = 'g' := by injection hcell
        by_cases hgr : wAt guess j = wAt answer j
        · rw [hlc, ← hgr]
        · rw [tile, if_neg hgr] at hti
          by_cases hcond : nongreenUpto guess answer (j + 1) (wAt guess j) ≤
              answer.count (wAt guess j) -
              greensUpto guess answer guess.length (wAt guess j)
          · rw [if_pos hcond] at hti
            exact absurd hti (by decide)
          · rw [if_neg hcond] at hti
            exact absurd hti (by decide)
      · intro hcell hcontra
        have hgr : wAt guess j ≠ wAt answer j := by
          intro hgr
          have hti : tile guess answer j = 'g' := by rw [tile, if_pos hgr]
          rcases hcell with hcell | hcell <;> rw [hti] at hcell <;>
            exact absurd (show ('g' : Char) = _ by injection hcell)
              (by decide)
        apply hgr
        rw [hlc] at hcontra
        exact hcontra.symm
    · rw [if_neg hidx]
      exact hpos i hi j hj
  · intro i hi
    by_cases hh : rowHit guess (List.range 5) i
    · obtain ⟨h5, h6⟩ := hhit i hh
      obtain ⟨hc1, hc2⟩ := @clf_true_feedback guess answer (letterChar i)
      have hga : greensUpto guess answer guess.length (letterChar i) ≤
          answer.count (letterChar i) :=
        greens_le_count (by omega) (letterChar i)
      refine ⟨clfCount (letterChar i) guess (tileMap guess answer),
        by rw [h5], ?_, ?_⟩
      · rw [hc1]
        omega
      · intro htr
        rw [h6] at htr
        have hex : clfExact (letterChar i) guess (tileMap guess answer) =
            true := htr
        rw [hc2] at hex
        have hgt := of_decide_eq_true hex
        rw [hc1]
        omega
    · obtain ⟨h5, h6⟩ := hmiss i hh
      obtain ⟨m, hm1, hm2, hm3⟩ := hcnt i hi
      exact ⟨m, by rw [h5, hm1], hm2, by rw [h6]; exact hm3⟩

/-- A sound array accepts the true answer. -/
theorem validB_of_sound {answer : List Char} {arr : List (List Cell)}
    (ha : lcWord answer) (ha5 : answer.length = 5)
    (hs : SoundArr answer arr) : validB answer arr = true := by
  obtain ⟨hpos, hcnt⟩ := hs
  refine validB_iff.mpr ⟨?_, ?_, ?_, ?_⟩
  · refine posOK1_iff.mpr fun j hj => ?_
    have hj5 : j < 5 := by omega
    have hc : lcChar (wAt answer j) := ha _ (wAt_mem hj)
    have hidx : letterIdx (wAt answer j) < 26 := lcChar_letterIdx_lt hc
    have hlc : letterChar (letterIdx (wAt answer j)) = wAt answer j :=
      lcChar_letterChar hc
    rw [byAt]
    cases hcell : cellB arr (letterIdx (wAt answer j)) j with
    | cChar c =>
      by_cases hb : c = 'b'
      · exact absurd hlc.symm
          ((hpos _ hidx j hj5).2 (Or.inr (by rw [hcell, hb])))
      · by_cases hy : c = 'y'
        · exact absurd hlc.symm
            ((hpos _ hidx j hj5).2 (Or.inl (by rw [hcell, hy])))
        · simp [cellEqChar, hb, hy]
    | cNum n => simp [cellEqChar]
    | cBool b => simp [cellEqChar]
  · refine posOK2_iff.mpr fun j hj k hk hg => ?_
    have hj5 : j < 5 := by omega
    have hcell : cellB arr k j = Cell.cChar 'g' := by
      cases hc : cellB arr k j with
      | cChar c =>
        rw [hc] at hg
        have : c = 'g' := of_decide_eq_true hg
        rw [this]
      | cNum n => rw [hc] at hg; exact absurd hg (by simp [cellEqChar])
      | cBool b => rw [hc] at hg; exact absurd hg (by simp [cellEqChar])
    have hmk := (hpos k hk j hj5).1 hcell
    rw [← letterIdx_letterChar k hk, ← hmk]
  · refine freqOK1_iff.mpr fun j hj => ?_
    have hc : lcChar (wAt answer j) := ha _ (wAt_mem hj)
    have hidx : letterIdx (wAt answer j) < 26 := lcChar_letterIdx_lt hc
    have hlc : letterChar (letterIdx (wAt answer j)) = wAt answer j :=
      lcChar_letterChar hc
    obtain ⟨m, hm1, hm2, hm3⟩ := hcnt (letterIdx (wAt answer j)) hidx
    have hrm : rowMin arr (letterIdx (wAt answer j)) = (m : Int) := by
      rw [rowMin, hm1]
      rfl
    constructor
    · intro he
      rw [hrm, hm3 he, hlc]
    · intro _
      rw [hrm]
      have : m ≤ answer.count (wAt answer j) := by rw [← hlc]; exact hm2
      exact_mod_cast this
  · refine freqOK2_iff.mpr fun k hk h1 => ?_
    obtain ⟨m, hm1, hm2, _⟩ := hcnt k hk
    have hrm : rowMin arr k = (m : Int) := by
      rw [rowMin, hm1]
      rfl
    rw [hrm] at h1
    have hm : 1 ≤ m := by exact_mod_cast h1
    exact List.count_pos_iff.mp (by omega)

theorem run_guesses_sound {answer : List Char} (ha : lcWord answer)
    (ha5 : answer.length = 5) :
    ∀ (gs : List (List Char)) (arr : List (List Cell)),
      (∀ g ∈ gs, lcWord g ∧ g.length = 5) → wf_array arr →
      SoundArr answer arr →
      ∃ A, run_guesses answer gs arr = .ok A ∧ wf_array A ∧
        SoundArr answer A := by
  intro gs
  induction gs with
  | nil =>
    intro arr _ hw hsnd
    exact ⟨arr, rfl, hw, hsnd⟩
  | cons g gs ih =>
    intro arr hgs hw hsnd
    obtain ⟨hgl, hg5⟩ := hgs g (List.mem_cons_self g gs)
    have hcwi := compute_wordle_information_eq hgl ha (by omega)
    have hck5 : (tileMap g answer).length = 5 := by
      rw [tileMap_length, hg5]
    obtain ⟨A1, hA1, _, _, _⟩ := generate_array_eq hgl hg5 hck5 hw
    rw [run_guesses, apply_guess, hcwi, pym_bind_ok, hA1, pym_bind_ok]
    exact ih A1 (fun x hx => hgs x (List.mem_cons_of_mem g hx))
      (generate_array_wf hgl hg5 hck5 hw hA1)
      (SoundArr_step hgl hg5 ha ha5 hw hsnd hA1)

/-- Claim C1: for every 5-letter lowercase answer and every sequence of
5-letter lowercase guesses, accumulating the true feedback of each guess
with `generate_array`, starting from the all-zero array, always succeeds
and always leaves the answer accepted by `valid_guess`.  Since the
guess sequence is arbitrary, this covers the state after every update. -/
theorem C1_answer_never_excluded {answer : List Char}
    {guesses : List (List Char)} (ha : lcWord answer)
    (ha5 : answer.length = 5)
    (hgs : ∀ g ∈ guesses, lcWord g ∧ g.length = 5) :
    ∃ A, run_guesses answer guesses init_array = .ok A ∧
      valid_guess answer A = .ok true := by
  obtain ⟨A, hA, hwf, hsnd⟩ := run_guesses_sound ha ha5 guesses init_array
    hgs wf_init_array (SoundArr_init answer)
  refine ⟨A, hA, ?_⟩
  have hnum : num5 A := num5_of_cells hwf fun i hi => by
    obtain ⟨m, hm1, _, _⟩ := hsnd.2 i hi
    rw [hm1]
    rfl
  rw [valid_guess_eq ha (by omega) hwf hnum, validB_of_sound ha ha5 hsnd]

/-- Witness for claim C1 at a concrete input. -/
theorem C1_witness :
    lcWord "crane".toList ∧ "crane".toList.length = 5 ∧
    (∃ A, run_guesses "crane".toList ["slate".toList, "brake".toList]
        init_array = .ok A ∧
      valid_guess "crane".toList A = .ok true) :=
  ⟨by decide, by decide,
    C1_answer_never_excluded (by decide) (by decide) (by decide)⟩

theorem dict_bump_sum (k : List Char) :
    ∀ d : List (List Char × Nat),
      ((dict_bump d k).map Prod.snd).sum = (d.map Prod.snd).sum + 1
  | [] => by simp [dict_bump]
  | (k', c) :: rest => by
    by_cases h : k' = k
    · simp only [dict_bump, if_pos h, List.map_cons, List.sum_cons]
      omega
    · simp only [dict_bump, if_neg h, List.map_cons, List.sum_cons,
        dict_bump_sum k rest]
      omega

theorem dict_bump_pos (k : List Char) :
    ∀ d : List (List Char × Nat), (∀ p ∈ d, 1 ≤ p.2) →
      ∀ p ∈ dict_bump d k, 1 ≤ p.2
  | [], _, p, hp => by
    simp [dict_bump] at hp
    subst hp
    exact Nat.le_refl 1
  | (k', c) :: rest, h, p, hp => by
    by_cases hk : k' = k
    · simp [dict_bump, hk] at hp
      rcases hp with hp | hp
      · subst hp
        exact Nat.le_add_left 1 c
      · exact h p (List.mem_cons_of_mem _ hp)
    · simp only [dict_bump, if_neg hk, List.mem_cons] at hp
      rcases hp with hp | hp
      · exact hp ▸ h (k', c) (List.mem_cons_self _ _)
      · exact dict_bump_pos k rest
          (fun q hq => h q (List.mem_cons_of_mem _ hq)) p hp

/-- The counting loop of `compute_probability_distribution` succeeds on
lowercase equal-length words, every stored count stays at least one, and
the total of the stored counts grows by the number of words processed. -/
theorem cpd_loop_ok {guess : List Char} (hg : lcWord guess) :
    ∀ ws : List (List Char),
      (∀ w ∈ ws, lcWord w ∧ guess.length = w.length) →
      ∀ d : List (List Char × Nat), ∃ d',
        cpd_loop guess ws d = .ok d' ∧
        (d'.map Prod.snd).sum = (d.map Prod.snd).sum + ws.length ∧
        ((∀ p ∈ d, 1 ≤ p.2) → ∀ p ∈ d', 1 ≤ p.2)
  | [], _, d => ⟨d, rfl, by simp, fun h => h⟩
  | w :: ws, hws, d => by
    obtain ⟨hw, hlen⟩ := hws w (List.mem_cons_self _ _)
    obtain ⟨d', hd', hsum, hpos⟩ := cpd_loop_ok hg ws
      (fun x hx => hws x (List.mem_cons_of_mem _ hx)) (dict_bump d (tileMap guess w))
    refine ⟨d', ?_, ?_, ?_⟩
    · rw [cpd_loop, compute_wordle_information_eq hg hw hlen, pym_bind_ok, hd']
    · rw [hsum, dict_bump_sum]
      simp
      omega
    · intro h0
      exact hpos (dict_bump_pos (tileMap guess w) d h0)

theorem foldl_add_sum {α : Type} (f : α → ℝ) :
    ∀ (l : List α) (a : ℝ),
      l.foldl (fun acc x => acc + f x) a = a + (l.map f).sum
  | [], a => by simp
  | x :: xs, a => by
    rw [List.foldl_cons, foldl_add_sum f xs (a + f x), List.map_cons,
      List.sum_cons]
    ring

theorem length_le_sum : ∀ cs : List Nat, (∀ c ∈ cs, 1 ≤ c) → cs.length ≤ cs.sum
  | [], _ => Nat.le_refl 0
  | c :: cs, h => by
    have h1 := h c (List.mem_cons_self _ _)
    have h2 := length_le_sum cs (fun x hx => h x (List.mem_cons_of_mem _ hx))
    simp only [List.length_cons, List.sum_cons]
    omega

theorem mem_le_sum {c : Nat} : ∀ {cs : List Nat}, c ∈ cs → c ≤ cs.sum := by
  intro cs h
  induction cs with
  | nil => cases h
  | cons a t ih =>
    rcases List.mem_cons.mp h with rfl | h'
    · simp only [List.sum_cons]
      omega
    · have := ih h'
      simp only [List.sum_cons]
      omega

theorem sum_map_affine (A B : ℝ) (g : Nat → ℝ) :
    ∀ cs : List Nat,
      (cs.map (fun c => A + g c * B)).sum =
        (cs.length : ℝ) * A + (cs.map g).sum * B
  | [] => by simp
  | c :: cs => by
    simp only [List.map_cons, List.sum_cons, List.length_cons,
      sum_map_affine A B g cs]
    push_cast
    ring

theorem sum_map_div (n : ℝ) :
    ∀ cs : List Nat,
      (cs.map (fun c : Nat => (c : ℝ) / n)).sum = ((cs.sum : ℝ)) / n
  | [] => by simp
  | c :: cs => by
    simp only [List.map_cons, List.sum_cons, sum_map_div n cs]
    push_cast
    ring

/-- Each summand of the entropy accumulation is nonnegative: every bucket
probability lies in `(0, 1]`, so its base-2 log-reciprocal is nonnegative. -/
theorem entropy_sum_nonneg (cs : List Nat) (n : Nat) (hpos : ∀ c ∈ cs, 1 ≤ c)
    (hsum : cs.sum = n) (hn : 1 ≤ n) :
    0 ≤ (cs.map
        (fun c : Nat => ((c : ℝ) / (n : ℝ)) *
          Real.logb 2 (1 / ((c : ℝ) / (n : ℝ))))).sum := by
  apply List.sum_nonneg
  intro x hx
  obtain ⟨c, hc, rfl⟩ := List.mem_map.mp hx
  have hc1 : 1 ≤ c := hpos c hc
  have hcn : c ≤ n := hsum ▸ mem_le_sum hc
  have hnR : (0 : ℝ) < (n : ℝ) := by exact_mod_cast Nat.lt_of_lt_of_le Nat.zero_lt_one hn
  have hcR : (0 : ℝ) < (c : ℝ) := by exact_mod_cast Nat.lt_of_lt_of_le Nat.zero_lt_one hc1
  have hp : 0 < (c : ℝ) / (n : ℝ) := div_pos hcR hnR
  have hple : (c : ℝ) / (n : ℝ) ≤ 1 := by
    rw [div_le_one hnR]
    exact_mod_cast hcn
  exact mul_nonneg hp.le
    (Real.logb_nonneg one_lt_two (one_le_one_div hp hple))

/-- Gibbs bound for the entropy accumulation: the bucket-probability
entropy is at most the base-2 log of the number of buckets, hence of the
total count. -/
theorem entropy_sum_le (cs : List Nat) (n : Nat) (hpos : ∀ c ∈ cs, 1 ≤ c)
    (hsum : cs.sum = n) (hn : 1 ≤ n) :
    (cs.map
        (fun c : Nat => ((c : ℝ) / (n : ℝ)) *
          Real.logb 2 (1 / ((c : ℝ) / (n : ℝ))))).sum ≤
      Real.logb 2 (n : ℝ) := by
  have hne : cs ≠ [] := by
    intro h
    rw [h] at hsum
    simp at hsum
    omega
  have hk1 : 1 ≤ cs.length := by
    cases cs with
    | nil => exact absurd rfl hne
    | cons a t => simp
  have hkn : cs.length ≤ n := hsum ▸ length_le_sum cs hpos
  have hnR : (0 : ℝ) < (n : ℝ) := by exact_mod_cast Nat.lt_of_lt_of_le Nat.zero_lt_one hn
  have hkR : (0 : ℝ) < (cs.length : ℝ) := by
    exact_mod_cast Nat.lt_of_lt_of_le Nat.zero_lt_one hk1
  have hlog2 : (0 : ℝ) < Real.log 2 := Real.log_pos one_lt_two
  have hk0 : (cs.length : ℝ) ≠ 0 := ne_of_gt hkR
  have hl0 : Real.log 2 ≠ 0 := ne_of_gt hlog2
  have hterm : ∀ c ∈ cs,
      ((c : ℝ) / (n : ℝ)) * Real.logb 2 (1 / ((c : ℝ) / (n : ℝ))) ≤
        1 / ((cs.length : ℝ) * Real.log 2) +
          ((c : ℝ) / (n : ℝ)) *
            (Real.logb 2 (cs.length : ℝ) - 1 / Real.log 2) := by
    intro c hc
    have hc1 : 1 ≤ c := hpos c hc
    have hcR : (0 : ℝ) < (c : ℝ) := by
      exact_mod_cast Nat.lt_of_lt_of_le Nat.zero_lt_one hc1
    have hp : 0 < (c : ℝ) / (n : ℝ) := div_pos hcR hnR
    have hp0 : (c : ℝ) / (n : ℝ) ≠ 0 := ne_of_gt hp
    have hsplit : Real.logb 2 (1 / ((c : ℝ) / (n : ℝ))) =
        Real.logb 2 (1 / (((c : ℝ) / (n : ℝ)) * (cs.length : ℝ))) +
          Real.logb 2 (cs.length : ℝ) := by
      rw [← Real.logb_mul (by positivity) hk0]
      congr 1
      field_simp
      ring
    have hx : (0 : ℝ) < 1 / (((c : ℝ) / (n : ℝ)) * (cs.length : ℝ)) := by positivity
    have hlog := Real.log_le_sub_one_of_pos hx
    have h1 : Real.logb 2 (1 / (((c : ℝ) / (n : ℝ)) * (cs.length : ℝ))) ≤
        (1 / (((c : ℝ) / (n : ℝ)) * (cs.length : ℝ)) - 1) / Real.log 2 := by
      rw [Real.logb, div_eq_mul_inv, div_eq_mul_inv]
      exact mul_le_mul_of_nonneg_right hlog (inv_nonneg.mpr hlog2.le)
    have h3 := mul_le_mul_of_nonneg_left h1 hp.le
    have h4 : ((c : ℝ) / (n : ℝ)) *
        ((1 / (((c : ℝ) / (n : ℝ)) * (cs.length : ℝ)) - 1) / Real.log 2) =
        1 / ((cs.length : ℝ) * Real.log 2) - ((c : ℝ) / (n : ℝ)) / Real.log 2 := by
      field_simp
      ring
    rw [h4] at h3
    rw [hsplit, mul_add]
    have h5 : ((c : ℝ) / (n : ℝ)) *
        (Real.logb 2 (cs.length : ℝ) - 1 / Real.log 2) =
        ((c : ℝ) / (n : ℝ)) * Real.logb 2 (cs.length : ℝ) -
          ((c : ℝ) / (n : ℝ)) / Real.log 2 := by
      ring
    rw [h5]
    linarith
  have hle1 := List.sum_le_sum hterm
  have haff := sum_map_affine (1 / ((cs.length : ℝ) * Real.log 2))
    (Real.logb 2 (cs.length : ℝ) - 1 / Real.log 2)
    (fun c => (c : ℝ) / (n : ℝ)) cs
  have hps : (cs.map (fun c : Nat => (c : ℝ) / (n : ℝ))).sum = 1 := by
    rw [sum_map_div (n : ℝ) cs, hsum]
    exact div_self (ne_of_gt hnR)
  rw [haff, hps] at hle1
  have hkk : (cs.length : ℝ) * (1 / ((cs.length : ℝ) * Real.log 2)) =
      1 / Real.log 2 := by
    field_simp
  rw [hkk, one_mul] at hle1
  have hfin : Real.logb 2 (cs.length : ℝ) ≤ Real.logb 2 (n : ℝ) :=
    Real.logb_le_logb_of_le one_lt_two hkR (by exact_mod_cast hkn)
  linarith

/-- C7: for every lowercase guess word and every non-empty list of
equal-length lowercase possible answers, `compute_entropy` succeeds and
returns a value `H` with `0 ≤ H ≤ log₂ (length of the word list)`, the
probabilities being the feedback-bucket counts divided by the number of
answers as computed by `compute_probability_distribution`
(wordle.py lines 132-171). -/
theorem C7_entropy_bounds {guess : List Char} {wl : List (List Char)}
    (hg : lcWord guess) (hw : ∀ w ∈ wl, lcWord w ∧ guess.length = w.length)
    (hne : wl ≠ []) :
    ∃ H, compute_entropy guess wl = .ok H ∧
      0 ≤ H ∧ H ≤ Real.logb 2 (wl.length : ℝ) := by
  obtain ⟨d', hd', hsum, hposf⟩ := cpd_loop_ok hg wl hw []
  have hpos : ∀ p ∈ d', 1 ≤ p.2 :=
    hposf (fun p hp => absurd hp (List.not_mem_nil p))
  have hpos' : ∀ c ∈ d'.map Prod.snd, 1 ≤ c := by
    intro c hc
    obtain ⟨p, hp, rfl⟩ := List.mem_map.mp hc
    exact hpos p hp
  have hsum' : (d'.map Prod.snd).sum = wl.length := by simpa using hsum
  have hn : 1 ≤ wl.length := List.length_pos.mpr hne
  simp only [compute_entropy, compute_probability_distribution, hd',
    pym_bind_ok]
  have hfold : (d'.map
        (fun p => (p.1, (p.2 : ℚ) / (wl.length : ℚ)))).foldl
        (fun acc p => acc + (p.2 : ℝ) * Real.logb 2 (1 / (p.2 : ℝ))) 0 =
      ((d'.map (fun p => (p.1, (p.2 : ℚ) / (wl.length : ℚ)))).map
        (fun p => (p.2 : ℝ) * Real.logb 2 (1 / (p.2 : ℝ)))).sum := by
    rw [foldl_add_sum]
    ring
  have hmm : ((d'.map (fun p => (p.1, (p.2 : ℚ) / (wl.length : ℚ)))).map
        (fun p => (p.2 : ℝ) * Real.logb 2 (1 / (p.2 : ℝ)))).sum =
      ((d'.map Prod.snd).map
        (fun c : Nat => ((c : ℝ) / (wl.length : ℝ)) *
          Real.logb 2 (1 / ((c : ℝ) / (wl.length : ℝ))))).sum := by
    rw [List.map_map, List.map_map]
    congr 1
    apply List.map_congr_left
    intro p _
    simp only [Function.comp]
    push_cast
    ring_nf
  refine ⟨_, rfl, ?_, ?_⟩
  · rw [hfold, hmm]
    exact entropy_sum_nonneg _ wl.length hpos' hsum' hn
  · rw [hfold, hmm]
    exact entropy_sum_le _ wl.length hpos' hsum' hn

/-- Witness for C7 at the guess "aaaaa" and the singleton answer list
["aaaaa"]. -/
theorem C7_witness :
    ∃ H, compute_entropy "aaaaa".toList ["aaaaa".toList] = .ok H ∧
      0 ≤ H ∧
        H ≤ Real.logb 2 ((["aaaaa".toList] : List (List Char)).length : ℝ) :=
  C7_entropy_bounds (by decide) (by decide) (by decide)

theorem compute_entropy_ok {guess : List Char} {pg : List (List Char)}
    (hg : lcWord guess) (hw : ∀ u ∈ pg, lcWord u ∧ guess.length = u.length) :
    compute_entropy guess pg = .ok (entVal pg guess) := by
  obtain ⟨d', hd', _, _⟩ := cpd_loop_ok hg pg hw []
  have hok : ∃ H, compute_entropy guess pg = .ok H := by
    simp only [compute_entropy, compute_probability_distribution, hd',
      pym_bind_ok]
    exact ⟨_, rfl⟩
  obtain ⟨H, hH⟩ := hok
  rw [hH, entVal, hH]
  rfl

theorem gel_loop_eq {pg : List (List Char)} :
    ∀ (ws : List (List Char)) (acc : List (List Char × ℝ)),
      (∀ w ∈ ws, compute_entropy w pg = .ok (entVal pg w)) →
      gel_loop pg ws acc = .ok (acc ++ ws.map (fun w => (w, entVal pg w)))
  | [], acc, _ => by simp [gel_loop]
  | w :: ws, acc, h => by
    rw [gel_loop, h w (List.mem_cons_self _ _), pym_bind_ok,
      gel_loop_eq ws (acc ++ [(w, entVal pg w)])
        (fun x hx => h x (List.mem_cons_of_mem _ hx))]
    simp

theorem filter_orderedInsert (e : ℝ) (a : List Char × ℝ) :
    ∀ l : List (List Char × ℝ),
      (l.orderedInsert entropy_ge a).filter (fun p => decide (p.2 = e)) =
        ((a :: l).filter (fun p => decide (p.2 = e)))
  | [] => rfl
  | b :: l => by
    by_cases hr : entropy_ge a b
    · rw [List.orderedInsert, if_pos hr]
    · rw [List.orderedInsert, if_neg hr]
      have hab : a.2 < b.2 := lt_of_not_le hr
      by_cases hbe : b.2 = e
      · have hae : ¬ a.2 = e := by
          intro h
          rw [h, hbe] at hab
          exact lt_irrefl e hab
        rw [List.filter_cons, if_pos (by simpa using hbe),
          filter_orderedInsert e a l, List.filter_cons,
          if_neg (by simpa using hae), List.filter_cons,
          if_neg (by simpa using hae), List.filter_cons,
          if_pos (by simpa using hbe)]
      · by_cases hae : a.2 = e
        · rw [List.filter_cons, if_neg (by simpa using hbe),
            filter_orderedInsert e a l, List.filter_cons,
            if_pos (by simpa using hae), List.filter_cons,
            if_pos (by simpa using hae), List.filter_cons,
            if_neg (by simpa using hbe)]
        · rw [List.filter_cons, if_neg (by simpa using hbe),
            filter_orderedInsert e a l, List.filter_cons,
            if_neg (by simpa using hae), List.filter_cons,
            if_neg (by simpa using hae), List.filter_cons,
            if_neg (by simpa using hbe)]

theorem filter_insertionSort (e : ℝ) :
    ∀ l : List (List Char × ℝ),
      (l.insertionSort entropy_ge).filter (fun p => decide (p.2 = e)) =
        l.filter (fun p => decide (p.2 = e))
  | [] => rfl
  | a :: l => by
    rw [List.insertionSort, filter_orderedInsert e a (l.insertionSort entropy_ge),
      List.filter_cons, List.filter_cons, filter_insertionSort e l]

/-- C8: on lowercase length-5 pools with a non-empty answer list,
`generate_entropy_list` succeeds and returns exactly one pair
`(w, compute_entropy w possible_guesses)` per word `w` of `word_list`
(a permutation of the entry-per-word list, each second component being
the successful `compute_entropy` value), sorted by entropy descending
(`entropy_ge`), and for every entropy value the entries carrying it keep
their original `word_list` order (stability of Python `sorted`,
wordle.py lines 173-190). -/
theorem C8_ranking {word_list pg : List (List Char)}
    (hwl : ∀ w ∈ word_list, lcWord w ∧ w.length = 5)
    (hpg : ∀ u ∈ pg, lcWord u ∧ u.length = 5)
    (hne : pg ≠ []) :
    ∃ el, generate_entropy_list word_list pg = .ok el ∧
      (∀ w ∈ word_list, compute_entropy w pg = .ok (entVal pg w)) ∧
      el.Perm (word_list.map (fun w => (w, entVal pg w))) ∧
      el.Sorted entropy_ge ∧
      ∀ e : ℝ, el.filter (fun p => decide (p.2 = e)) =
        (word_list.map (fun w => (w, entVal pg w))).filter
          (fun p => decide (p.2 = e)) := by
  have hok : ∀ w ∈ word_list, compute_entropy w pg = .ok (entVal pg w) := by
    intro w hwmem
    obtain ⟨hlw, hl5⟩ := hwl w hwmem
    exact compute_entropy_ok hlw
      (fun u hu => ⟨(hpg u hu).1, by rw [hl5, (hpg u hu).2]⟩)
  refine ⟨(word_list.map (fun w => (w, entVal pg w))).insertionSort
      entropy_ge, ?_, hok, ?_, ?_, ?_⟩
  · rw [generate_entropy_list, gel_loop_eq word_list [] hok, pym_bind_ok,
      List.nil_append]
  · exact List.perm_insertionSort entropy_ge _
  · exact List.sorted_insertionSort entropy_ge _
  · intro e
    exact filter_insertionSort e _

/-- Witness for C8 at the one-word pools ["aaaaa"]. -/
theorem C8_witness :
    ∃ el, generate_entropy_list ["aaaaa".toList] ["aaaaa".toList] = .ok el ∧
      (∀ w ∈ (["aaaaa".toList] : List (List Char)),
        compute_entropy w ["aaaaa".toList] = .ok (entVal ["aaaaa".toList] w)) ∧
      el.Perm ((["aaaaa".toList] : List (List Char)).map
        (fun w => (w, entVal ["aaaaa".toList] w))) ∧
      el.Sorted entropy_ge ∧
      ∀ e : ℝ, el.filter (fun p => decide (p.2 = e)) =
        ((["aaaaa".toList] : List (List Char)).map
          (fun w => (w, entVal ["aaaaa".toList] w))).filter
            (fun p => decide (p.2 = e)) :=
  C8_ranking (by decide) (by decide) (by decide)

/-- Characterization of the self-play loop from any reachable state: the
result is either the first all-green turn (at most 6), or 7 when turns
through 6 all fail to be all-green. -/
theorem cpw_loop_spec {lines : List (List Char)} {answer : List Char} :
    ∀ (m t : Nat) (sugg : List Char) (arr : List (List Cell)) (r : Nat),
      t + m = 6 → 1 ≤ m →
      cpw_state lines answer t = .ok (sugg, arr) →
      cpw_loop lines answer m sugg t arr = .ok r →
      ((t + 1 ≤ r ∧ r ≤ 6 ∧
          cpw_feedback lines answer r = .ok "ggggg".toList ∧
          ∀ u, t + 1 ≤ u → u < r →
            ∃ s, cpw_feedback lines answer u = .ok s ∧
              s ≠ "ggggg".toList) ∨
        (r = 7 ∧ ∀ u, t + 1 ≤ u → u ≤ 6 →
          ∃ s, cpw_feedback lines answer u = .ok s ∧
            s ≠ "ggggg".toList)) := by
  intro m
  induction m with
  | zero =>
    intro t sugg arr r ht hm
    exact absurd hm (by omega)
  | succ m ih =>
    intro t sugg arr r ht _ hstate hrun
    simp only [cpw_loop] at hrun
    cases hc : compute_wordle_information sugg answer with
    | error e =>
      rw [hc, pym_bind_err] at hrun
      exact absurd hrun (by simp)
    | ok check =>
      rw [hc, pym_bind_ok] at hrun
      have hfb1 : cpw_feedback lines answer (t + 1) = .ok check := by
        simp only [cpw_feedback, Nat.add_sub_cancel, hstate, pym_bind_ok]
        exact hc
      by_cases hg : check = "ggggg".toList
      · rw [if_pos hg] at hrun
        injection hrun with hr
        left
        refine ⟨by omega, by omega, ?_, ?_⟩
        · rw [← hr, ← hg]
          exact hfb1
        · intro u hu1 hu2
          omega
      · rw [if_neg hg] at hrun
        cases hu : cpw_update lines sugg check arr with
        | error e =>
          rw [hu, pym_bind_err] at hrun
          exact absurd hrun (by simp)
        | ok sa =>
          rw [hu, pym_bind_ok] at hrun
          have hstate' : cpw_state lines answer (t + 1) = .ok sa := by
            simp only [cpw_state, hstate, pym_bind_ok, hc, hu]
          by_cases h6 : t + 1 ≥ 6
          · rw [if_pos h6] at hrun
            injection hrun with hr
            right
            have ht5 : t = 5 := by omega
            subst ht5
            refine ⟨by omega, ?_⟩
            intro u hu1 hu2
            have hu6 : u = 6 := by omega
            subst hu6
            exact ⟨check, hfb1, hg⟩
          · rw [if_neg h6] at hrun
            have hres := ih (t + 1) sa.1 sa.2 r (by omega) (by omega)
              (by simpa using hstate') hrun
            rcases hres with ⟨hr1, hr2, hfb, hprev⟩ | ⟨hr7, hall⟩
            · left
              refine ⟨by omega, hr2, hfb, ?_⟩
              intro u hu1 hu2
              by_cases hut : u = t + 1
              · subst hut
                exact ⟨check, hfb1, hg⟩
              · exact hprev u (by omega) hu2
            · right
              refine ⟨hr7, ?_⟩
              intro u hu1 hu2
              by_cases hut : u = t + 1
              · subst hut
                exact ⟨check, hfb1, hg⟩
              · exact hall u (by omega) hu2

/-- C9: whenever self-play `computer_play_wordle` returns a number `r`,
either some turn's feedback within the 6-turn budget equals the all-green
string "ggggg" and `r` is the turn number (`loop_count`) of the first
such turn, or no turn through the budget of 6 is all-green and `r` is
`loop_count + 1 = 7` (wordle.py lines 231-263; the word list read from
`sgb-words.txt` is the `lines` parameter). -/
theorem C9_self_play {lines : List (List Char)} {answer : List Char}
    {r : Nat} (h : computer_play_wordle lines answer = .ok r) :
    (1 ≤ r ∧ r ≤ 6 ∧
      cpw_feedback lines answer r = .ok "ggggg".toList ∧
      ∀ u, 1 ≤ u → u < r →
        ∃ s, cpw_feedback lines answer u = .ok s ∧ s ≠ "ggggg".toList) ∨
    (r = 7 ∧ ∀ u, 1 ≤ u → u ≤ 6 →
      ∃ s, cpw_feedback lines answer u = .ok s ∧ s ≠ "ggggg".toList) := by
  have hres := cpw_loop_spec 6 0 "tares".toList init_array r (by omega)
    (by omega) rfl h
  simpa using hres

/-- Witness for C9: with an empty dictionary and the answer "tares", the
opening guess is immediately all-green and the solver reports turn 1. -/
theorem C9_witness :
    (1 ≤ 1 ∧ 1 ≤ 6 ∧
      cpw_feedback [] "tares".toList 1 = .ok "ggggg".toList ∧
      ∀ u, 1 ≤ u → u < 1 →
        ∃ s, cpw_feedback [] "tares".toList u = .ok s ∧
          s ≠ "ggggg".toList) ∨
    (1 = 7 ∧ ∀ u, 1 ≤ u → u ≤ 6 →
      ∃ s, cpw_feedback [] "tares".toList u = .ok s ∧
        s ≠ "ggggg".toList) :=
  @C9_self_play [] "tares".toList 1 (by
    rw [computer_play_wordle, show (6 : Nat) = 5 + 1 from rfl]
    simp only [cpw_loop]
    rw [show compute_wordle_information "tares".toList "tares".toList =
        .ok "ggggg".toList from by decide, pym_bind_ok, if_pos rfl])
